import Mathlib

/-!
A shallow embedding of `gradapp_bot.py` and proofs about it.

The program polls a forum listing API for threads newer than a watermark
(`last-tid=<digits>` embedded in a Telegram chat description), enriches each
new thread with detail fields, broadcasts messages, and persists the
watermark.  External I/O (HTTP pages, the detail endpoint, Telegram calls)
is modelled by explicit oracles passed as arguments; all pure logic
(pagination, filtering, the regular-expression read/substitute of the
watermark, the detail-translation loops, the per-item delivery loop) is
translated directly from the source.
-/

namespace GradApp

/-- Strings are modelled as lists of characters. -/
abbrev Str := List Char

/-! ### Python string helpers (`str.strip` / `str.rstrip`) -/

/-- `s.lstrip(chars)`: drop leading characters satisfying `p`. -/
def pyLstrip (p : Char → Bool) (s : Str) : Str := s.dropWhile p

/-- `s.rstrip(chars)`: drop trailing characters satisfying `p`. -/
def pyRstrip (p : Char → Bool) (s : Str) : Str := (s.reverse.dropWhile p).reverse

/-- `s.strip(chars)`: drop characters satisfying `p` from both ends. -/
def pyStrip (p : Char → Bool) (s : Str) : Str := pyRstrip p (pyLstrip p s)

/-! ### Python dict model (insertion order preserved, later assignment wins) -/

/-- `d[k] = v` on a Python dict rendered as an ordered association list:
an existing key keeps its position and gets the new value, a new key is
appended. -/
def dictInsert {α : Type} (d : List (Str × α)) (k : Str) (v : α) : List (Str × α) :=
  if d.any (fun p => p.1 = k) then
    d.map (fun p => if p.1 = k then (k, v) else p)
  else d ++ [(k, v)]

/-- `dict(pairs)`: build a dict from a pair sequence, later keys overriding. -/
def pyDict {α : Type} (ps : List (Str × α)) : List (Str × α) :=
  ps.foldl (fun d p => dictInsert d p.1 p.2) []

/-- `d.get(k)` on a dict rendered as an ordered association list. -/
def dictGet {α : Type} (d : List (Str × α)) (k : Str) : Option α :=
  (d.find? (fun p => p.1 = k)).map (fun p => p.2)

/-! ### The regular expression `last-tid=(\d+)`

`re.findall` and `re.sub` with this pattern are modelled by one
left-to-right scanner over the character list: at each position it tries to
match the literal `last-tid=` followed by a maximal non-empty digit run
(the pattern has no backtracking, so greedy maximal munch is exact), and on
a match continues after the digit run (Python matches are non-overlapping).
The scanner recurses structurally on a fuel argument initialised to the
string length, which strictly exceeds the characters consumed per step. -/

/-- The literal part of the pattern, 9 characters. -/
def litLastTid : Str := "last-tid=".data

/-- Does the pattern `last-tid=(\d+)` match at the start of `l`? -/
def headMatch (l : Str) : Bool :=
  if l.take 9 = litLastTid then
    match l.drop 9 with
    | c :: _ => c.isDigit
    | [] => false
  else false

/-- One pass of the scanner: returns the string with every match replaced
by `repl` together with the list of captured digit groups, in order. -/
def reScanAux (repl : Str) : Nat → Str → Str × List Str
  | 0, l => (l, [])
  | _, [] => ([], [])
  | fuel + 1, c :: cs =>
    if headMatch (c :: cs) then
      (repl ++ (reScanAux repl fuel (((c :: cs).drop 9).dropWhile Char.isDigit)).1,
        ((c :: cs).drop 9).takeWhile Char.isDigit ::
          (reScanAux repl fuel (((c :: cs).drop 9).dropWhile Char.isDigit)).2)
    else
      (c :: (reScanAux repl fuel cs).1, (reScanAux repl fuel cs).2)

/-- The decomposition of a string at its first `last-tid=(\d+)` match:
`some (pre, ds, rest)` when the string is `pre ++ "last-tid=" ++ ds ++ rest`
with `ds` the captured maximal digit run, `none` when there is no match. -/
def reFirstMatchAux : Nat → Str → Option (Str × Str × Str)
  | 0, _ => none
  | _, [] => none
  | fuel + 1, c :: cs =>
    if headMatch (c :: cs) then
      some ([], ((c :: cs).drop 9).takeWhile Char.isDigit,
        ((c :: cs).drop 9).dropWhile Char.isDigit)
    else
      (reFirstMatchAux fuel cs).map (fun pdr => (c :: pdr.1, pdr.2.1, pdr.2.2))

/-- The first-match decomposition at canonical fuel. -/
def reFirstMatch (l : Str) : Option (Str × Str × Str) := reFirstMatchAux l.length l

/-- Decimal rendering of a natural number (what `f'last-tid={tid}'` embeds
for a non-negative `tid`), fuel-based so that it is structurally
recursive. -/
def natDigitsAux : Nat → Nat → Str → Str
  | 0, _, acc => acc
  | fuel + 1, n, acc =>
    if n = 0 then acc
    else natDigitsAux fuel (n / 10) (Char.ofNat (48 + n % 10) :: acc)

/-- Decimal rendering of a natural number. -/
def natToDigits (n : Nat) : Str :=
  if n = 0 then ['0'] else natDigitsAux n n []

/-- `int(ds)` for a non-empty digit string `ds`. -/
def parseNat (ds : Str) : Nat := ds.foldl (fun a c => 10 * a + (c.toNat - 48)) 0

/-- `re.findall(r'last-tid=(\d+)', s)`: the captured digit groups. -/
def reFindallLastTid (s : Str) : List Str := (reScanAux [] s.length s).2

/-- `re.sub(r'last-tid=(\d+)', f'last-tid={tid}', s)`. -/
def reSubLastTid (tid : Nat) (s : Str) : Str :=
  (reScanAux (litLastTid ++ natToDigits tid) s.length s).1

/-- `GradAppBot.get_last_tid`, the pure part: extract the watermark from a
chat description, `-1` when the pattern is absent (hence also when the
description is empty). -/
def extractLastTid (desc : Str) : Int :=
  match reFindallLastTid desc with
  | [] => -1
  | g :: _ => (parseNat g : Int)

/-! ### Data model of listing items -/

/-- A thread object from the listing API (`data['threads']` entries).
Identifiers are the remote system's thread ids; only fields the program
reads are kept. -/
structure Thread where
  tid : Nat
  subject : Str
  author : Str
  dateline : Int
  topic_tag : List Str
deriving Repr, DecidableEq

/-- One listing-API response (after `raise_for_status`/`r.json()`):
the `errno` field and the `threads` sequence. -/
structure ApiPage where
  errno : Int
  threads : List Thread
deriving Repr, DecidableEq

/-- The exceptions the fetch can raise: a failed `assert data['errno'] == 0`
and a failed `assert len(data['threads']) > 0`. -/
inductive FetchErr
  | errnoFailed
  | emptyPage
deriving Repr, DecidableEq

/-! ### `Helper1P3A.get_gradapp_threads` (incremental fetcher)

`inline_get_gradapp_threads(pg, depth)` recurses with `depth + 1` and stops
at `depth >= 5`; the embedding recurses structurally on the remaining
budget `5 - depth`, so `depth >= 5` becomes `budget = 0` and `depth + 1`
becomes `budget - 1`.  The listing API is an oracle `pages : Nat → ApiPage`
giving the response for each page number. -/

/-- `inline_get_gradapp_threads` with `budget = 5 - depth`. -/
def goFetch (pages : Nat → ApiPage) (last_tid : Int) : Nat → Nat → Except FetchErr (List Thread)
  | pg, budget =>
    if (pages pg).errno ≠ 0 then .error .errnoFailed
    else
      match (pages pg).threads with
      | [] => .error .emptyPage
      | t :: ts =>
        if last_tid ≤ 0 ∨ budget = 0 then .ok (t :: ts)
        else if (((t :: ts).getLast (List.cons_ne_nil t ts)).tid : Int) ≤ last_tid then
          .ok ((t :: ts).filter (fun u => last_tid < (u.tid : Int)))
        else
          match budget with
          | 0 => .ok (t :: ts)
          | b + 1 =>
            match goFetch pages last_tid (pg + 1) b with
            | .error e => .error e
            | .ok rest => .ok (t :: ts ++ rest)

/-- `inline_get_gradapp_threads(pg, depth)`. -/
def inline_get_gradapp_threads (pages : Nat → ApiPage) (last_tid : Int)
    (pg depth : Nat) : Except FetchErr (List Thread) :=
  goFetch pages last_tid pg (5 - depth)

/-- `Helper1P3A.get_gradapp_threads(last_tid)`: run the inline recursion
from page 1, depth 1, and reverse the result (oldest first). -/
def get_gradapp_threads (pages : Nat → ApiPage) (last_tid : Int) :
    Except FetchErr (List Thread) :=
  (inline_get_gradapp_threads pages last_tid 1 1).map List.reverse

/-- The concatenation of `n` pages' thread lists starting at page `pg`. -/
def concatFrom (pages : Nat → ApiPage) (pg : Nat) : Nat → List Thread
  | 0 => []
  | n + 1 => (pages pg).threads ++ concatFrom pages (pg + 1) n

/-! ### Detail enrichment -/

/-- Exceptions a detail fetch can raise (network error, failed assert,
parse error); all are caught by the `no_exception` decorator. -/
inductive PyErr
  | httpError
  | assertFailed
  | parseFailed
deriving Repr, DecidableEq

/-- The `no_exception(v)` decorator: evaluate the call, and on any
exception log and return the default `v`. -/
def no_exception {α : Type} (v : α) (call : Except PyErr α) : α :=
  match call with
  | .ok x => x
  | .error _ => v

/-- An entry of `data['options']` from the thread-options endpoint. -/
structure ApiOption where
  optionid : Int
  value : Str
deriving Repr, DecidableEq

/-- An entry of the pre-defined `Helper1P3A.options` table.  `choices` is
`table.get('choices')` as an ordered pair list; `none` models a missing
key. -/
structure OptionTable where
  optionid : Int
  title : Str
  choices : Option (List (Str × Str))
deriving Repr, DecidableEq

/-- A details mapping: Python dict from titles to values, where a value of
`none` models Python `None` (a `choices` lookup miss). -/
abbrev DetailsMap := List (Str × Option Str)

/-- `Helper1P3A.__find_option_by_id`: first table entry with the id;
`none` models the falsy `{}` returned when absent. -/
def find_option_by_id (tables : List OptionTable) (option_id : Int) : Option OptionTable :=
  tables.find? (fun o => o.optionid == option_id)

/-- The translation loop of `Helper1P3A.get_thread_details`: for each
option, strip the value of spaces and pipes, skip it when the table lookup
or the stripped value is falsy, and record the (possibly
choices-translated) value under the table's title. -/
def translateOptions (tables : List OptionTable) (opts : List ApiOption) : DetailsMap :=
  opts.foldl (fun details (a : ApiOption) =>
    let value := pyStrip (fun c => c = ' ' ∨ c = '|') a.value
    match find_option_by_id tables a.optionid with
    | none => details
    | some table =>
      if value = [] then details
      else
        dictInsert details table.title
          (match table.choices with
           | some (c :: cs) => dictGet (pyDict (c :: cs)) value
           | _ => some value)) []

/-- `Helper1P3A.get_thread_details`: the options fetch is an oracle
`fetch` giving `(errno, options)` or the exception raised; the
`no_exception({})` decorator turns any exception (including the failed
`assert data['errno'] == 0`) into an empty mapping. -/
def get_thread_details (tables : List OptionTable)
    (fetch : Except PyErr (Int × List ApiOption)) : DetailsMap :=
  no_exception [] (do
    let (errno, options) ← fetch
    if errno ≠ 0 then throw .assertFailed
    else pure (translateOptions tables options))

/-- The `'content locked'` marker substrings of
`Helper1P3A.get_thread_details_legacy`. -/
def contentLockedMarkers : List Str :=
  ["隐藏内容".data, "积分不足".data, "解锁阅读".data]

/-- `Helper1P3A.get_thread_details_legacy`: the HTML fetch/parse is an
oracle yielding the `(th, td)` text of each table row or an exception; on
success the rows are key-stripped, value-stripped, filtered of rows whose
value contains a lock marker, and collected into a dict. -/
def get_thread_details_legacy (fetch : Except PyErr (List (Str × Str))) :
    List (Str × Str) :=
  no_exception [] (fetch.map (fun rows =>
    pyDict (((rows.map (fun row =>
        (pyRstrip (fun c => c = ':') row.1, pyStrip Char.isWhitespace row.2))).filter
      (fun kv => ¬ contentLockedMarkers.any (fun s => decide (s <:+: kv.2)))))))

/-- `Helper1P3A.get_gradapp_threads_with_details`: enrich every fetched
thread with its details.  `detailFetch` is the per-thread options oracle. -/
def get_gradapp_threads_with_details (pages : Nat → ApiPage)
    (tables : List OptionTable) (detailFetch : Nat → Except PyErr (Int × List ApiOption))
    (last_tid : Int) : Except FetchErr (List (Thread × DetailsMap)) :=
  (get_gradapp_threads pages last_tid).map
    (List.map (fun t => (t, get_thread_details tables (detailFetch t.tid))))

/-! ### Run orchestration (`GradAppBot.check_and_push`) -/

/-- The bot's mutable state: the description stored at the messaging
service and the cached `self.chat_description`. -/
structure BotState where
  remote : Str
  cache : Str
deriving Repr, DecidableEq

/-- How a run's per-item loop ended: the loop ran off the end of the item
list, `set_last_tid` returned false (the `break`), or `broadcast` raised. -/
inductive StopReason
  | completed
  | persistFailed
  | deliverFailed
deriving Repr, DecidableEq

/-- A run's observable outcome: final state, tids whose message was
delivered, tids whose watermark write was persisted, both in order, and
why the loop stopped. -/
structure RunTrace where
  state : BotState
  delivered : List Nat
  persisted : List Nat
  stop : StopReason
deriving Repr, DecidableEq

/-- `GradAppBot.set_last_tid(tid)`: fail when the cached description is
empty; otherwise substitute the pattern in the cache (the cache is updated
even when the subsequent persist call fails) and persist it, the external
call's success given by the oracle `persistOK`. -/
def set_last_tid (persistOK : Bool) (tid : Nat) (st : BotState) : Bool × BotState :=
  if st.cache = [] then (false, st)
  else
    let desc := reSubLastTid tid st.cache
    if persistOK then (true, ⟨desc, desc⟩)
    else (false, ⟨st.remote, desc⟩)

/-- The per-item loop of `GradAppBot.check_and_push`: for each thread,
format the message (pure), call `set_last_tid` and `break` when it returns
false, then `broadcast`; a failed broadcast raises and aborts the loop.
`persistOK i` / `deliverOK i` give the outcome of the `i`-th external
persist / send call. -/
def check_loop (persistOK deliverOK : Nat → Bool) :
    List (Thread × DetailsMap) → Nat → BotState → RunTrace
  | [], _, st => ⟨st, [], [], .completed⟩
  | t :: ts, i, st =>
    match set_last_tid (persistOK i) t.1.tid st with
    | (false, st') => ⟨st', [], [], .persistFailed⟩
    | (true, st') =>
      if deliverOK i then
        let r := check_loop persistOK deliverOK ts (i + 1) st'
        ⟨r.state, t.1.tid :: r.delivered, t.1.tid :: r.persisted, r.stop⟩
      else ⟨st', [], [t.1.tid], .deliverFailed⟩

/-- `GradAppBot.check_and_push`: read the watermark from the remote
description (caching it), fetch the enriched threads, and run the per-item
loop; a fetch failure propagates. -/
def check_and_push (pages : Nat → ApiPage) (tables : List OptionTable)
    (detailFetch : Nat → Except PyErr (Int × List ApiOption))
    (persistOK deliverOK : Nat → Bool) (remote : Str) :
    Except FetchErr RunTrace :=
  let last_tid := extractLastTid remote
  (get_gradapp_threads_with_details pages tables detailFetch last_tid).map
    (fun threads => check_loop persistOK deliverOK threads 0 ⟨remote, remote⟩)

/-- Project the trace out of a run that is known to have fetched
successfully (used only to state concrete counterexamples). -/
def runTraceOf (e : Except FetchErr RunTrace) : RunTrace :=
  match e with
  | .ok tr => tr
  | .error _ => ⟨⟨[], []⟩, [], [], .completed⟩

/-- The description after a sequence of watermark substitutions. -/
def iterSub (tids : List Nat) (s : Str) : Str :=
  tids.foldl (fun d tid => reSubLastTid tid d) s

/-! ### Concrete scenarios used by witnesses and counterexamples -/

/-- A thread with the given identifier and empty other fields. -/
def mkThread (tid : Nat) : Thread := ⟨tid, [], [], 0, []⟩

/-- A detail oracle where every options fetch fails with a network error. -/
def noDetails : Nat → Except PyErr (Int × List ApiOption) := fun _ => .error .httpError

/-- Listing: page 1 holds item 101, every later page holds the older
item 90. -/
def cex1Pages : Nat → ApiPage := fun i =>
  if i = 1 then ⟨0, [mkThread 101]⟩ else ⟨0, [mkThread 90]⟩

def cex1Desc : Str := "last-tid=100".data

/-- A run over `cex1Pages` from watermark 100 where every persist succeeds
and every delivery fails. -/
def cex1Run : Except FetchErr RunTrace :=
  check_and_push cex1Pages [] noDetails (fun _ => true) (fun _ => false) cex1Desc

/-- Listing: pages 1–4 hold items 2004, 2003, 2002, 2001, all newer than
watermark 1000; page 5 holds the stale item 999. -/
def cex2Pages : Nat → ApiPage := fun i =>
  if i ≤ 4 then ⟨0, [mkThread (2005 - i)]⟩ else ⟨0, [mkThread 999]⟩

def cex2Desc : Str := "last-tid=1000".data

/-- A fully successful run over `cex2Pages` from watermark 1000: the
depth bound is exhausted, so stale item 999 is delivered and persisted
first. -/
def cex2Run : Except FetchErr RunTrace :=
  check_and_push cex2Pages [] noDetails (fun _ => true) (fun _ => true) cex2Desc

/-- `cex2Pages` with garbage beyond page 5; agrees with `cex2Pages` on
pages 1–5. -/
def cex2PagesJunk : Nat → ApiPage := fun i =>
  if i ≤ 5 then cex2Pages i else ⟨7, []⟩

/-- An options table with id 5, title `备注`, and no choices. -/
def cex7Tables : List OptionTable := [⟨5, "备注".data, none⟩]

/-- A successful options fetch whose only row's value is the lock marker
`隐藏内容` itself. -/
def cex7Fetch : Except PyErr (Int × List ApiOption) := .ok (0, [⟨5, "隐藏内容".data⟩])

/-- Listing matching the spec's boundary scenario: page 1 returns
105, 104, 103, 102, 101, 86 newest-first; later pages hold item 42. -/
def witPages : Nat → ApiPage := fun i =>
  if i = 1 then
    ⟨0, [mkThread 105, mkThread 104, mkThread 103, mkThread 102, mkThread 101, mkThread 86]⟩
  else ⟨0, [mkThread 42]⟩

def witDesc : Str := "last-tid=100".data

/-- A fully successful run over `witPages` from watermark 100. -/
def witRun : Except FetchErr RunTrace :=
  check_and_push witPages [] noDetails (fun _ => true) (fun _ => true) witDesc

/-- A listing whose first page is empty (with success error code). -/
def emptyPages : Nat → ApiPage := fun _ => ⟨0, []⟩

/-! ### List helper lemmas -/

theorem length_dropWhile_le' (p : Char → Bool) (l : Str) :
    (l.dropWhile p).length ≤ l.length := by
  induction l with
  | nil => simp [List.dropWhile]
  | cons c cs ih =>
    by_cases h : p c
    · simpa [List.dropWhile, h] using Nat.le_succ_of_le ih
    · simp [List.dropWhile, h]

theorem mem_takeWhile' {p : Char → Bool} {l : Str} {a : Char}
    (h : a ∈ l.takeWhile p) : p a = true := by
  induction l with
  | nil => simp [List.takeWhile] at h
  | cons c cs ih =>
    by_cases hc : p c
    · simp only [List.takeWhile, hc] at h
      rcases List.mem_cons.mp h with rfl | h
      · exact hc
      · exact ih h
    · simp [List.takeWhile, hc] at h

theorem head?_dropWhile' {p : Char → Bool} {l : Str} {c : Char}
    (h : (l.dropWhile p).head? = some c) : p c = false := by
  induction l with
  | nil => simp [List.dropWhile] at h
  | cons x xs ih =>
    by_cases hx : p x
    · exact ih (by simpa [List.dropWhile, hx] using h)
    · simp only [List.dropWhile, hx] at h
      simp only [List.head?] at h
      cases h
      simpa using hx

theorem takeWhile_append_all {p : Char → Bool} (ds rest : Str)
    (hds : ∀ c ∈ ds, p c = true)
    (hrest : ∀ c, rest.head? = some c → p c = false) :
    (ds ++ rest).takeWhile p = ds ∧ (ds ++ rest).dropWhile p = rest := by
  induction ds with
  | nil =>
    cases rest with
    | nil => simp [List.takeWhile, List.dropWhile]
    | cons r rs =>
      have : p r = false := hrest r rfl
      simp [List.takeWhile, List.dropWhile, this]
  | cons d ds ih =>
    have hd : p d = true := hds d (List.mem_cons_self d ds)
    have := ih (fun c hc => hds c (List.mem_cons_of_mem d hc))
    simp [List.takeWhile, List.dropWhile, hd, this.1, this.2]

theorem head?_append_ne_nil {A X : Str} (h : A ≠ []) :
    (A ++ X).head? = A.head? := by
  cases A with
  | nil => exact absurd rfl h
  | cons a t => rfl

theorem mem_of_head?' {α : Type} {l : List α} {x : α} (h : l.head? = some x) :
    x ∈ l := by
  cases l with
  | nil => simp at h
  | cons a t =>
    rw [List.head?_cons, Option.some.injEq] at h
    rw [← h]
    exact List.mem_cons_self a t

/-- In a list sorted by non-increasing `tid`, the last element has the
smallest `tid`. -/
theorem pairwise_getLast_le {l : List Thread} (h : l ≠ [])
    (hs : l.Pairwise (fun a b => b.tid ≤ a.tid)) :
    ∀ x ∈ l, (l.getLast h).tid ≤ x.tid := by
  induction l with
  | nil => exact absurd rfl h
  | cons a t ih =>
    intro x hx
    cases t with
    | nil =>
      rcases List.mem_singleton.mp hx with rfl
      simp [List.getLast]
    | cons b u =>
      rw [List.getLast_cons (List.cons_ne_nil b u)]
      rcases List.mem_cons.mp hx with rfl | hx
      · have hlast : (b :: u).getLast (List.cons_ne_nil b u) ∈ b :: u :=
          List.getLast_mem _
        exact (List.pairwise_cons.mp hs).1 _ hlast
      · exact ih (List.cons_ne_nil b u) (List.pairwise_cons.mp hs).2 x hx

/-! ### Decimal rendering and parsing lemmas -/

theorem char_digit_toNat {r : Nat} (h : r < 10) :
    (Char.ofNat (48 + r)).toNat = 48 + r := by
  interval_cases r <;> decide

theorem char_digit_isDigit {r : Nat} (h : r < 10) :
    (Char.ofNat (48 + r)).isDigit = true := by
  interval_cases r <;> decide

theorem natDigitsAux_acc (fuel : Nat) :
    ∀ n acc, natDigitsAux fuel n acc = natDigitsAux fuel n [] ++ acc := by
  induction fuel with
  | zero => intro n acc; simp [natDigitsAux]
  | succ fuel ih =>
    intro n acc
    by_cases h : n = 0
    · simp [natDigitsAux, h]
    · simp only [natDigitsAux, h, if_false]
      rw [ih (n / 10) (Char.ofNat (48 + n % 10) :: acc),
        ih (n / 10) [Char.ofNat (48 + n % 10)]]
      simp

theorem natDigitsAux_foldl (fuel : Nat) :
    ∀ n, n ≤ fuel → ∀ x,
      (natDigitsAux fuel n []).foldl (fun a c => 10 * a + (c.toNat - 48)) x =
        x * 10 ^ (natDigitsAux fuel n []).length + n := by
  induction fuel with
  | zero =>
    intro n hn x
    interval_cases n
    simp [natDigitsAux]
  | succ fuel ih =>
    intro n hn x
    by_cases h : n = 0
    · simp [natDigitsAux, h]
    · simp only [natDigitsAux, h, if_false]
      rw [natDigitsAux_acc]
      have hrec : n / 10 ≤ fuel := by
        have h1 : n / 10 < n := Nat.div_lt_self (Nat.pos_of_ne_zero h) (by omega)
        omega
      rw [List.foldl_append, ih (n / 10) hrec x]
      simp only [List.foldl, List.length_append, List.length_cons, List.length_nil]
      rw [char_digit_toNat (Nat.mod_lt n (by omega))]
      have hmod : 48 + n % 10 - 48 = n % 10 := by omega
      rw [hmod, pow_succ]
      have := Nat.div_add_mod n 10
      ring_nf
      omega

theorem parseNat_natToDigits (n : Nat) : parseNat (natToDigits n) = n := by
  by_cases h : n = 0
  · subst h; decide
  · simp only [natToDigits, h, if_false, parseNat]
    simpa using natDigitsAux_foldl n n (le_refl n) 0

theorem natToDigits_ne_nil (n : Nat) : natToDigits n ≠ [] := by
  by_cases h : n = 0
  · subst h; decide
  · simp only [natToDigits, h, if_false]
    obtain ⟨m, rfl⟩ : ∃ m, n = m + 1 := ⟨n - 1, by omega⟩
    simp only [natDigitsAux, h, if_false]
    rw [natDigitsAux_acc]
    simp

theorem natDigitsAux_digits (fuel : Nat) :
    ∀ n acc, (∀ c ∈ acc, c.isDigit = true) →
      ∀ c ∈ natDigitsAux fuel n acc, c.isDigit = true := by
  induction fuel with
  | zero => intro n acc hacc; simpa [natDigitsAux] using hacc
  | succ fuel ih =>
    intro n acc hacc
    by_cases h : n = 0
    · simpa [natDigitsAux, h] using hacc
    · simp only [natDigitsAux, h, if_false]
      refine ih (n / 10) _ ?_
      intro c hc
      rcases List.mem_cons.mp hc with rfl | hc
      · exact char_digit_isDigit (Nat.mod_lt n (by omega))
      · exact hacc c hc

theorem natToDigits_digits (n : Nat) : ∀ c ∈ natToDigits n, c.isDigit = true := by
  by_cases h : n = 0
  · subst h; decide
  · simp only [natToDigits, h, if_false]
    exact natDigitsAux_digits n n [] (by simp)

/-! ### Scanner lemmas -/

theorem headMatch_length {l : Str} (h : headMatch l = true) : 10 ≤ l.length := by
  simp only [headMatch] at h
  by_cases ht : l.take 9 = litLastTid
  · have h9 : l.length ≥ 9 := by
      have := congrArg List.length ht
      simp [List.length_take, litLastTid] at this
      omega
    rw [if_pos ht] at h
    cases hd : l.drop 9 with
    | nil =>
      rw [hd] at h
      simp at h
    | cons c cs =>
      have := congrArg List.length hd
      simp [List.length_drop] at this
      omega
  · rw [if_neg ht] at h
    simp at h

theorem reScanAux_fuel (repl : Str) (f : Nat) :
    ∀ (f' : Nat) (l : Str), l.length ≤ f → l.length ≤ f' →
      reScanAux repl f l = reScanAux repl f' l := by
  induction f with
  | zero =>
    intro f' l hf _
    have : l = [] := List.eq_nil_of_length_eq_zero (Nat.le_zero.mp hf)
    subst this
    cases f' <;> rfl
  | succ f ih =>
    intro f' l hf hf'
    cases l with
    | nil => cases f' <;> rfl
    | cons c cs =>
      cases f' with
      | zero => simp at hf'
      | succ f'' =>
        have hcs : cs.length + 1 ≤ f + 1 := by simpa using hf
        have hcs' : cs.length + 1 ≤ f'' + 1 := by simpa using hf'
        by_cases hm : headMatch (c :: cs) = true
        · have hlen : 10 ≤ (c :: cs).length := headMatch_length hm
          have hlc : (c :: cs).length = cs.length + 1 := by simp
          have hr := length_dropWhile_le' Char.isDigit ((c :: cs).drop 9)
          have hd9 : ((c :: cs).drop 9).length = (c :: cs).length - 9 :=
            List.length_drop 9 (c :: cs)
          simp only [reScanAux]
          rw [if_pos hm, if_pos hm,
            ih f'' (((c :: cs).drop 9).dropWhile Char.isDigit) (by omega) (by omega)]
        · simp only [reScanAux]
          rw [if_neg hm, if_neg hm, ih f'' cs (by omega) (by omega)]

theorem reFirstMatchAux_fuel (f : Nat) :
    ∀ (f' : Nat) (l : Str), l.length ≤ f → l.length ≤ f' →
      reFirstMatchAux f l = reFirstMatchAux f' l := by
  induction f with
  | zero =>
    intro f' l hf _
    have : l = [] := List.eq_nil_of_length_eq_zero (Nat.le_zero.mp hf)
    subst this
    cases f' <;> rfl
  | succ f ih =>
    intro f' l hf hf'
    cases l with
    | nil => cases f' <;> rfl
    | cons c cs =>
      cases f' with
      | zero => simp at hf'
      | succ f'' =>
        have hcs : cs.length + 1 ≤ f + 1 := by simpa using hf
        have hcs' : cs.length + 1 ≤ f'' + 1 := by simpa using hf'
        by_cases hm : headMatch (c :: cs) = true
        · simp only [reFirstMatchAux]
          rw [if_pos hm, if_pos hm]
        · simp only [reFirstMatchAux]
          rw [if_neg hm, if_neg hm, ih f'' cs (by omega) (by omega)]

theorem headMatch_iff {l : Str} :
    headMatch l = true ↔
      l.take 9 = litLastTid ∧ ∃ c cs', l.drop 9 = c :: cs' ∧ c.isDigit = true := by
  simp only [headMatch]
  by_cases ht : l.take 9 = litLastTid
  · rw [if_pos ht]
    cases hd : l.drop 9 with
    | nil => simp [ht, hd]
    | cons c cs' => simp [ht, hd]
  · rw [if_neg ht]
    simp [ht]

theorem reFirstMatchAux_spec (f : Nat) :
    ∀ (l : Str), l.length ≤ f → ∀ pre ds rest,
      reFirstMatchAux f l = some (pre, ds, rest) →
      l = pre ++ litLastTid ++ ds ++ rest ∧ ds ≠ [] ∧
        (∀ c ∈ ds, c.isDigit = true) ∧
        (∀ c, rest.head? = some c → c.isDigit = false) ∧
        (∀ i, i < pre.length → headMatch (l.drop i) = false) := by
  induction f with
  | zero =>
    intro l _ pre ds rest h
    simp [reFirstMatchAux] at h
  | succ f ih =>
    intro l hf pre ds rest h
    cases l with
    | nil => simp [reFirstMatchAux] at h
    | cons c cs =>
      by_cases hm : headMatch (c :: cs) = true
      · simp only [reFirstMatchAux] at h
        rw [if_pos hm] at h
        simp only [Option.some.injEq, Prod.mk.injEq] at h
        obtain ⟨h1, h2, h3⟩ := h
        subst h1; subst h2; subst h3
        obtain ⟨ht, d, ds', hd, hdig⟩ := headMatch_iff.mp hm
        refine ⟨?_, ?_, ?_, ?_, ?_⟩
        · conv_lhs => rw [← List.take_append_drop 9 (c :: cs)]
          rw [ht, ← List.takeWhile_append_dropWhile (p := Char.isDigit)
            (l := (c :: cs).drop 9)]
          simp
        · rw [hd]
          simp [List.takeWhile, hdig]
        · intro x hx; exact mem_takeWhile' hx
        · intro x hx; exact head?_dropWhile' hx
        · intro i hi; simp at hi
      · simp only [reFirstMatchAux] at h
        rw [if_neg hm] at h
        rcases Option.map_eq_some'.mp h with ⟨⟨p', d', r'⟩, hfm, heq⟩
        simp only [Prod.mk.injEq] at heq
        obtain ⟨h1, h2, h3⟩ := heq
        rw [← h1, ← h2, ← h3]
        have hcs : cs.length ≤ f := by
          have hlc : (c :: cs).length = cs.length + 1 := by simp
          omega
        obtain ⟨e1, e2, e3, e4, e5⟩ := ih cs hcs p' d' r' hfm
        refine ⟨by rw [e1]; simp, e2, e3, e4, ?_⟩
        intro i hi
        cases i with
        | zero => simpa using hm
        | succ j =>
          rw [List.drop_succ_cons]
          exact e5 j (by simp at hi; omega)

theorem reFirstMatchAux_build (f : Nat) :
    ∀ (pre l ds rest : Str), l.length ≤ f →
      l = pre ++ litLastTid ++ ds ++ rest → ds ≠ [] →
      (∀ c ∈ ds, c.isDigit = true) →
      (∀ c, rest.head? = some c → c.isDigit = false) →
      (∀ i, i < pre.length → headMatch (l.drop i) = false) →
      reFirstMatchAux f l = some (pre, ds, rest) := by
  induction f with
  | zero =>
    intro pre l ds rest hf hl hds _ _ _
    exfalso
    have hlen : l.length = pre.length + litLastTid.length + ds.length + rest.length := by
      rw [hl]; simp; omega
    have hlit : litLastTid.length = 9 := by decide
    omega
  | succ f ih =>
    intro pre l ds rest hf hl hds hdig hrest hnm
    cases pre with
    | nil =>
      have hassoc : l = litLastTid ++ (ds ++ rest) := by rw [hl]; simp
      obtain ⟨d, ds₂, rfl⟩ : ∃ d ds₂, ds = d :: ds₂ := by
        cases ds with
        | nil => exact absurd rfl hds
        | cons d ds₂ => exact ⟨d, ds₂, rfl⟩
      have hlit9 : litLastTid.length = 9 := by decide
      have htake : l.take 9 = litLastTid := by
        rw [hassoc, List.take_append_of_le_length (by omega)]
        exact List.take_of_length_le (by omega)
      have hdrop : l.drop 9 = (d :: ds₂) ++ rest := by
        rw [hassoc, List.drop_append_of_le_length (by omega)]
        have hld : litLastTid.drop 9 = [] := by decide
        rw [hld, List.nil_append]
      have hm : headMatch l = true := by
        rw [headMatch_iff]
        exact ⟨htake, d, ds₂ ++ rest, by rw [hdrop]; simp,
          hdig d (List.mem_cons_self d ds₂)⟩
      have htw := takeWhile_append_all (p := Char.isDigit) (d :: ds₂) rest hdig hrest
      cases l with
      | nil => simp [litLastTid] at hassoc
      | cons c cs =>
        simp only [reFirstMatchAux]
        rw [if_pos hm, hdrop, htw.1, htw.2]
    | cons p ps =>
      have hl' : l = p :: (ps ++ litLastTid ++ ds ++ rest) := by
        rw [hl]; simp
      subst hl'
      have hm0 := hnm 0 (by simp)
      rw [List.drop_zero] at hm0
      simp only [reFirstMatchAux]
      rw [if_neg (by rw [hm0]; simp)]
      have hcs : (ps ++ litLastTid ++ ds ++ rest).length ≤ f := by
        have hlc : (p :: (ps ++ litLastTid ++ ds ++ rest)).length =
          (ps ++ litLastTid ++ ds ++ rest).length + 1 := List.length_cons _ _
        omega
      rw [ih ps (ps ++ litLastTid ++ ds ++ rest) ds rest hcs rfl hds hdig hrest ?_]
      · rfl
      · intro i hi
        have hstep := hnm (i + 1) (by simp; omega)
        rwa [List.drop_succ_cons] at hstep

theorem reScan_none (repl : Str) (f : Nat) :
    ∀ (l : Str), l.length ≤ f → reFirstMatch l = none →
      reScanAux repl f l = (l, []) := by
  induction f with
  | zero =>
    intro l hf _
    have : l = [] := List.eq_nil_of_length_eq_zero (Nat.le_zero.mp hf)
    subst this
    rfl
  | succ f ih =>
    intro l hf h
    cases l with
    | nil => rfl
    | cons c cs =>
      by_cases hm : headMatch (c :: cs) = true
      · exfalso
        simp only [reFirstMatch, List.length_cons, reFirstMatchAux] at h
        rw [if_pos hm] at h
        exact Option.some_ne_none _ h
      · have hnone : reFirstMatch cs = none := by
          simp only [reFirstMatch, List.length_cons, reFirstMatchAux] at h
          rw [if_neg hm] at h
          exact Option.map_eq_none'.mp h
        have hcs : cs.length ≤ f := by
          have hlc : (c :: cs).length = cs.length + 1 := by simp
          omega
        simp only [reScanAux]
        rw [if_neg hm, ih cs hcs hnone]

theorem reScan_some (repl : Str) (f : Nat) :
    ∀ (l pre ds rest : Str), l.length ≤ f →
      reFirstMatch l = some (pre, ds, rest) →
      reScanAux repl f l =
        (pre ++ repl ++ (reScanAux repl rest.length rest).1,
          ds :: (reScanAux repl rest.length rest).2) := by
  induction f with
  | zero =>
    intro l pre ds rest hf h
    have : l = [] := List.eq_nil_of_length_eq_zero (Nat.le_zero.mp hf)
    subst this
    simp [reFirstMatch, reFirstMatchAux] at h
  | succ f ih =>
    intro l pre ds rest hf h
    cases l with
    | nil => simp [reFirstMatch, reFirstMatchAux] at h
    | cons c cs =>
      by_cases hm : headMatch (c :: cs) = true
      · simp only [reFirstMatch, List.length_cons, reFirstMatchAux] at h
        rw [if_pos hm] at h
        simp only [Option.some.injEq, Prod.mk.injEq] at h
        obtain ⟨h1, h2, h3⟩ := h
        rw [← h1, ← h2, ← h3]
        have hlen : 10 ≤ (c :: cs).length := headMatch_length hm
        have hr := length_dropWhile_le' Char.isDigit ((c :: cs).drop 9)
        have hd9 : ((c :: cs).drop 9).length = (c :: cs).length - 9 :=
          List.length_drop 9 (c :: cs)
        simp only [reScanAux]
        rw [if_pos hm,
          reScanAux_fuel repl f (((c :: cs).drop 9).dropWhile Char.isDigit).length
            (((c :: cs).drop 9).dropWhile Char.isDigit) (by omega) (le_refl _)]
        simp
      · simp only [reFirstMatch, List.length_cons, reFirstMatchAux] at h
        rw [if_neg hm] at h
        rcases Option.map_eq_some'.mp h with ⟨⟨p', d', r'⟩, hfm, heq⟩
        simp only [Prod.mk.injEq] at heq
        obtain ⟨h1, h2, h3⟩ := heq
        rw [← h1, ← h2, ← h3]
        have hcs : cs.length ≤ f := by
          have hlc : (c :: cs).length = cs.length + 1 := by simp
          omega
        simp only [reScanAux]
        rw [if_neg hm, ih cs p' d' r' hcs hfm]
        simp

theorem reSub_of_no_match (t : Nat) (l : Str) (h : reFirstMatch l = none) :
    reSubLastTid t l = l := by
  simp only [reSubLastTid]
  rw [reScan_none _ l.length l (le_refl _) h]

theorem reFindall_of_none (l : Str) (h : reFirstMatch l = none) :
    reFindallLastTid l = [] := by
  simp only [reFindallLastTid]
  rw [reScan_none _ l.length l (le_refl _) h]

theorem reSub_of_some (t : Nat) (l pre ds rest : Str)
    (h : reFirstMatch l = some (pre, ds, rest)) :
    reSubLastTid t l = pre ++ (litLastTid ++ natToDigits t) ++ reSubLastTid t rest := by
  simp only [reSubLastTid]
  rw [reScan_some _ l.length l pre ds rest (le_refl _) h]

theorem reFindall_of_some (l pre ds rest : Str)
    (h : reFirstMatch l = some (pre, ds, rest)) :
    reFindallLastTid l = ds :: reFindallLastTid rest := by
  simp only [reFindallLastTid]
  rw [reScan_some _ l.length l pre ds rest (le_refl _) h]

theorem reSub_head (t : Nat) (l : Str) : (reSubLastTid t l).head? = l.head? := by
  cases hfm : reFirstMatch l with
  | none => rw [reSub_of_no_match t l hfm]
  | some pdr =>
    obtain ⟨pre, ds, rest⟩ := pdr
    rw [reSub_of_some t l pre ds rest hfm]
    obtain ⟨hshape, hds, -, -, -⟩ :=
      reFirstMatchAux_spec l.length l (le_refl _) pre ds rest hfm
    cases pre with
    | nil =>
      rw [hshape]
      have hlit : litLastTid = 'l' :: "ast-tid=".data := by decide
      rw [hlit]
      rfl
    | cons p ps => rw [hshape]; rfl

theorem headMatch_append_long {B X Y : Str} (hB : 10 ≤ B.length) :
    headMatch (B ++ X) = headMatch (B ++ Y) := by
  obtain ⟨e, es, he⟩ : ∃ e es, B.drop 9 = e :: es := by
    cases hd : B.drop 9 with
    | nil =>
      exfalso
      have := congrArg List.length hd
      simp [List.length_drop] at this
      omega
    | cons e es => exact ⟨e, es, rfl⟩
  simp only [headMatch]
  rw [List.take_append_of_le_length (by omega), List.take_append_of_le_length (by omega),
    List.drop_append_of_le_length (by omega), List.drop_append_of_le_length (by omega),
    he]
  rfl

theorem reFindall_reSub (t : Nat) (n : Nat) :
    ∀ (l : Str), l.length ≤ n →
      reFindallLastTid (reSubLastTid t l) =
        (reFindallLastTid l).map (fun _ => natToDigits t) := by
  induction n with
  | zero =>
    intro l hf
    have : l = [] := List.eq_nil_of_length_eq_zero (Nat.le_zero.mp hf)
    subst this
    rfl
  | succ n ih =>
    intro l hf
    cases hfm : reFirstMatch l with
    | none =>
      rw [reSub_of_no_match t l hfm, reFindall_of_none l hfm]
      rfl
    | some pdr =>
      obtain ⟨pre, ds, rest⟩ := pdr
      obtain ⟨hshape, hds, hdig, hresthead, hnm⟩ :=
        reFirstMatchAux_spec l.length l (le_refl _) pre ds rest hfm
      have hlit9 : litLastTid.length = 9 := by decide
      have hsub := reSub_of_some t l pre ds rest hfm
      have hBl : l = (pre ++ litLastTid) ++ (ds ++ rest) := by rw [hshape]; simp
      have hBl' : reSubLastTid t l =
          (pre ++ litLastTid) ++ (natToDigits t ++ reSubLastTid t rest) := by
        rw [hsub]; simp
      have hfm' : reFirstMatch (reSubLastTid t l) =
          some (pre, natToDigits t, reSubLastTid t rest) := by
        refine reFirstMatchAux_build (reSubLastTid t l).length pre (reSubLastTid t l)
          (natToDigits t) (reSubLastTid t rest) (le_refl _) (by rw [hsub]; simp)
          (natToDigits_ne_nil t) (natToDigits_digits t) ?_ ?_
        · intro c hc
          rw [reSub_head t rest] at hc
          exact hresthead c hc
        · intro i hi
          have hiB : i ≤ (pre ++ litLastTid).length := by
            simp [hlit9]
            omega
          have hlen10 : 10 ≤ ((pre ++ litLastTid).drop i).length := by
            rw [List.length_drop]
            simp only [List.length_append, hlit9]
            omega
          rw [hBl', List.drop_append_of_le_length hiB,
            headMatch_append_long hlen10 (Y := ds ++ rest),
            ← List.drop_append_of_le_length hiB, ← hBl]
          exact hnm i hi
      have hlrest : rest.length ≤ n := by
        have hll := congrArg List.length hshape
        have hdsne : ds.length ≠ 0 := fun hz => hds (List.eq_nil_of_length_eq_zero hz)
        simp [hlit9] at hll
        omega
      rw [reFindall_of_some _ _ _ _ hfm', reFindall_of_some _ _ _ _ hfm, ih rest hlrest]
      simp

theorem reFindall_reSub' (t : Nat) (l : Str) :
    reFindallLastTid (reSubLastTid t l) =
      (reFindallLastTid l).map (fun _ => natToDigits t) :=
  reFindall_reSub t l.length l (le_refl _)

/-- Substituting the watermark into a description that contains the
pattern makes `t` the extracted watermark. -/
theorem extract_reSub (t : Nat) (l : Str) (h : reFindallLastTid l ≠ []) :
    extractLastTid (reSubLastTid t l) = (t : Int) := by
  simp only [extractLastTid, reFindall_reSub' t l]
  cases hg : reFindallLastTid l with
  | nil => exact absurd hg h
  | cons g gs => simp [parseNat_natToDigits]

theorem reFindall_reSub_ne (t : Nat) (l : Str) (h : reFindallLastTid l ≠ []) :
    reFindallLastTid (reSubLastTid t l) ≠ [] := by
  rw [reFindall_reSub' t l]
  simpa using h

theorem reSub_ne_nil (t : Nat) {l : Str} (h : l ≠ []) : reSubLastTid t l ≠ [] := by
  cases hfm : reFirstMatch l with
  | none => rw [reSub_of_no_match t l hfm]; exact h
  | some pdr =>
    obtain ⟨pre, ds, rest⟩ := pdr
    rw [reSub_of_some t l pre ds rest hfm]
    simp [litLastTid]

theorem ne_nil_of_findall_ne_nil {l : Str} (h : reFindallLastTid l ≠ []) : l ≠ [] := by
  intro hl
  subst hl
  exact h rfl

/-- When the description has no `last-tid=<digits>` occurrence, the
substitution is the identity. -/
theorem reSub_id_of_findall_nil (t : Nat) {l : Str} (h : reFindallLastTid l = []) :
    reSubLastTid t l = l := by
  cases hfm : reFirstMatch l with
  | none => exact reSub_of_no_match t l hfm
  | some pdr =>
    obtain ⟨pre, ds, rest⟩ := pdr
    rw [reFindall_of_some _ _ _ _ hfm] at h
    exact absurd h (List.cons_ne_nil _ _)

/-! ### Fetcher branch lemmas -/

theorem goFetch_eq (pages : Nat → ApiPage) (lt : Int) (pg b : Nat) :
    goFetch pages lt pg b =
      if (pages pg).errno ≠ 0 then .error .errnoFailed
      else
        match (pages pg).threads with
        | [] => .error .emptyPage
        | t :: ts =>
          if lt ≤ 0 ∨ b = 0 then .ok (t :: ts)
          else if (((t :: ts).getLast (List.cons_ne_nil t ts)).tid : Int) ≤ lt then
            .ok ((t :: ts).filter (fun u => lt < (u.tid : Int)))
          else
            match b with
            | 0 => .ok (t :: ts)
            | b' + 1 =>
              match goFetch pages lt (pg + 1) b' with
              | .error e => .error e
              | .ok rest => .ok (t :: ts ++ rest) := by
  conv_lhs => unfold goFetch

theorem goFetch_errno {pages : Nat → ApiPage} {lt : Int} {pg : Nat} (b : Nat)
    (h : (pages pg).errno ≠ 0) :
    goFetch pages lt pg b = .error .errnoFailed := by
  rw [goFetch_eq]
  exact if_pos h

theorem goFetch_empty {pages : Nat → ApiPage} {lt : Int} {pg : Nat} (b : Nat)
    (h0 : (pages pg).errno = 0) (he : (pages pg).threads = []) :
    goFetch pages lt pg b = .error .emptyPage := by
  rw [goFetch_eq, if_neg (by simp [h0]), he]

theorem goFetch_all {pages : Nat → ApiPage} {lt : Int} {pg : Nat} {b : Nat}
    {t : Thread} {ts : List Thread}
    (h0 : (pages pg).errno = 0) (ht : (pages pg).threads = t :: ts)
    (hstop : lt ≤ 0 ∨ b = 0) :
    goFetch pages lt pg b = .ok (t :: ts) := by
  rw [goFetch_eq, if_neg (by simp [h0]), ht]
  exact if_pos hstop

theorem goFetch_boundary {pages : Nat → ApiPage} {lt : Int} {pg : Nat} {b : Nat}
    {t : Thread} {ts : List Thread}
    (h0 : (pages pg).errno = 0) (ht : (pages pg).threads = t :: ts)
    (hguard : ¬ (lt ≤ 0 ∨ b = 0))
    (hlast : (((t :: ts).getLast (List.cons_ne_nil t ts)).tid : Int) ≤ lt) :
    goFetch pages lt pg b = .ok ((t :: ts).filter (fun u => lt < (u.tid : Int))) := by
  rw [goFetch_eq, if_neg (by simp [h0]), ht]
  show (if lt ≤ 0 ∨ b = 0 then _ else _) = _
  rw [if_neg hguard]
  exact if_pos hlast

theorem goFetch_step {pages : Nat → ApiPage} {lt : Int} {pg : Nat} {b : Nat}
    {t : Thread} {ts : List Thread}
    (h0 : (pages pg).errno = 0) (ht : (pages pg).threads = t :: ts)
    (hguard : ¬ (lt ≤ 0 ∨ b + 1 = 0))
    (hlast : ¬ (((t :: ts).getLast (List.cons_ne_nil t ts)).tid : Int) ≤ lt) :
    goFetch pages lt pg (b + 1) =
      match goFetch pages lt (pg + 1) b with
      | .error e => .error e
      | .ok rest => .ok (t :: ts ++ rest) := by
  rw [goFetch_eq, if_neg (by simp [h0]), ht]
  show (if lt ≤ 0 ∨ b + 1 = 0 then _ else _) = _
  rw [if_neg hguard]
  exact if_neg hlast

/-! ### Fetcher theor-level lemmas -/

/-- The fetch result depends only on pages `pg .. pg + budget`; in
particular the top-level fetch reads at most pages 1 through 5. -/
theorem goFetch_congr (pages pages' : Nat → ApiPage) (lt : Int) :
    ∀ (b pg : Nat), (∀ i, pg ≤ i → i ≤ pg + b → pages i = pages' i) →
      goFetch pages lt pg b = goFetch pages' lt pg b := by
  intro b
  induction b with
  | zero =>
    intro pg h
    have hp : pages pg = pages' pg := h pg (le_refl pg) (by omega)
    by_cases h0 : (pages pg).errno = 0
    · cases ht : (pages pg).threads with
      | nil => rw [goFetch_empty 0 h0 ht, goFetch_empty 0 (hp ▸ h0) (hp ▸ ht)]
      | cons t ts =>
        rw [goFetch_all h0 ht (Or.inr rfl), goFetch_all (hp ▸ h0) (hp ▸ ht) (Or.inr rfl)]
    · rw [goFetch_errno 0 h0, goFetch_errno 0 (hp ▸ h0)]
  | succ b ih =>
    intro pg h
    have hp : pages pg = pages' pg := h pg (le_refl pg) (by omega)
    have h' : ∀ i, pg + 1 ≤ i → i ≤ pg + 1 + b → pages i = pages' i := by
      intro i h1 h2
      exact h i (by omega) (by omega)
    by_cases h0 : (pages pg).errno = 0
    · cases ht : (pages pg).threads with
      | nil => rw [goFetch_empty (b + 1) h0 ht, goFetch_empty (b + 1) (hp ▸ h0) (hp ▸ ht)]
      | cons t ts =>
        by_cases hstop : lt ≤ 0 ∨ b + 1 = 0
        · rw [goFetch_all h0 ht hstop, goFetch_all (hp ▸ h0) (hp ▸ ht) hstop]
        · by_cases hlast : (((t :: ts).getLast (List.cons_ne_nil t ts)).tid : Int) ≤ lt
          · rw [goFetch_boundary h0 ht hstop hlast,
              goFetch_boundary (hp ▸ h0) (hp ▸ ht) hstop hlast]
          · rw [goFetch_step h0 ht hstop hlast,
              goFetch_step (hp ▸ h0) (hp ▸ ht) hstop hlast, ih (pg + 1) h']
    · rw [goFetch_errno (b + 1) h0, goFetch_errno (b + 1) (hp ▸ h0)]

/-- When every visited page is well-formed and strictly newer than the
watermark, the budget runs out and the fetch returns all pages
unfiltered. -/
theorem goFetch_exhaust (pages : Nat → ApiPage) (lt : Int) (hlt : 0 < lt) :
    ∀ (b pg : Nat),
      (∀ i, pg ≤ i → i < pg + b → (pages i).errno = 0 ∧ (pages i).threads ≠ [] ∧
        (∀ x, (pages i).threads.getLast? = some x → lt < (x.tid : Int))) →
      (pages (pg + b)).errno = 0 → (pages (pg + b)).threads ≠ [] →
      goFetch pages lt pg b = .ok (concatFrom pages pg (b + 1)) := by
  intro b
  induction b with
  | zero =>
    intro pg _ h0 hne
    rw [Nat.add_zero] at h0 hne
    obtain ⟨t, ts, ht⟩ : ∃ t ts, (pages pg).threads = t :: ts := by
      cases hth : (pages pg).threads with
      | nil => exact absurd hth hne
      | cons t ts => exact ⟨t, ts, rfl⟩
    rw [goFetch_all h0 ht (Or.inr rfl)]
    simp [concatFrom, ht]
  | succ b ih =>
    intro pg hmid h0 hne
    obtain ⟨hpg0, hpgne, hpglast⟩ := hmid pg (le_refl _) (by omega)
    obtain ⟨t, ts, ht⟩ : ∃ t ts, (pages pg).threads = t :: ts := by
      cases hth : (pages pg).threads with
      | nil => exact absurd hth hpgne
      | cons t ts => exact ⟨t, ts, rfl⟩
    have hguard : ¬ (lt ≤ 0 ∨ b + 1 = 0) := by
      rw [not_or]
      exact ⟨by omega, by omega⟩
    have hlast : ¬ (((t :: ts).getLast (List.cons_ne_nil t ts)).tid : Int) ≤ lt := by
      have hx := hpglast ((t :: ts).getLast (List.cons_ne_nil t ts)) ?_
      · omega
      · rw [ht]
        exact (List.getLast?_eq_getLast _ _).symm
    have hmid' : ∀ i, pg + 1 ≤ i → i < pg + 1 + b → (pages i).errno = 0 ∧
        (pages i).threads ≠ [] ∧
        (∀ x, (pages i).threads.getLast? = some x → lt < (x.tid : Int)) := by
      intro i h1 h2
      exact hmid i (by omega) (by omega)
    have hidx : pg + 1 + b = pg + (b + 1) := by omega
    rw [goFetch_step hpg0 ht hguard hlast,
      ih (pg + 1) hmid' (by rw [hidx]; exact h0) (by rw [hidx]; exact hne)]
    simp [concatFrom, ht]

/-- When the boundary page (oldest item `≤` watermark) is reached after
`j` newer pages, within budget, the fetch returns the earlier pages
unfiltered plus the filtered boundary page. -/
theorem goFetch_reach_boundary (pages : Nat → ApiPage) (lt : Int) (hlt : 0 < lt) :
    ∀ (j b pg : Nat), j < b →
      (∀ i, pg ≤ i → i < pg + j → (pages i).errno = 0 ∧ (pages i).threads ≠ [] ∧
        (∀ x, (pages i).threads.getLast? = some x → lt < (x.tid : Int))) →
      (pages (pg + j)).errno = 0 → (pages (pg + j)).threads ≠ [] →
      (∀ x, (pages (pg + j)).threads.getLast? = some x → (x.tid : Int) ≤ lt) →
      goFetch pages lt pg b =
        .ok (concatFrom pages pg j ++
          (pages (pg + j)).threads.filter (fun u => lt < (u.tid : Int))) := by
  intro j
  induction j with
  | zero =>
    intro b pg hjb _ h0 hne hbd
    rw [Nat.add_zero] at h0 hne hbd
    obtain ⟨t, ts, ht⟩ : ∃ t ts, (pages pg).threads = t :: ts := by
      cases hth : (pages pg).threads with
      | nil => exact absurd hth hne
      | cons t ts => exact ⟨t, ts, rfl⟩
    have hguard : ¬ (lt ≤ 0 ∨ b = 0) := by
      rw [not_or]
      exact ⟨by omega, by omega⟩
    have hlast : (((t :: ts).getLast (List.cons_ne_nil t ts)).tid : Int) ≤ lt := by
      refine hbd ((t :: ts).getLast (List.cons_ne_nil t ts)) ?_
      rw [ht]
      exact (List.getLast?_eq_getLast _ _).symm
    rw [goFetch_boundary h0 ht hguard hlast]
    simp [concatFrom, ht]
  | succ j ih =>
    intro b pg hjb hmid h0 hne hbd
    obtain ⟨hpg0, hpgne, hpglast⟩ := hmid pg (le_refl _) (by omega)
    obtain ⟨t, ts, ht⟩ : ∃ t ts, (pages pg).threads = t :: ts := by
      cases hth : (pages pg).threads with
      | nil => exact absurd hth hpgne
      | cons t ts => exact ⟨t, ts, rfl⟩
    obtain ⟨b', rfl⟩ : ∃ b', b = b' + 1 := ⟨b - 1, by omega⟩
    have hguard : ¬ (lt ≤ 0 ∨ b' + 1 = 0) := by
      rw [not_or]
      exact ⟨by omega, by omega⟩
    have hlast : ¬ (((t :: ts).getLast (List.cons_ne_nil t ts)).tid : Int) ≤ lt := by
      have hx := hpglast ((t :: ts).getLast (List.cons_ne_nil t ts)) ?_
      · omega
      · rw [ht]
        exact (List.getLast?_eq_getLast _ _).symm
    have hmid' : ∀ i, pg + 1 ≤ i → i < pg + 1 + j → (pages i).errno = 0 ∧
        (pages i).threads ≠ [] ∧
        (∀ x, (pages i).threads.getLast? = some x → lt < (x.tid : Int)) := by
      intro i h1 h2
      exact hmid i (by omega) (by omega)
    have hidx : pg + 1 + j = pg + (j + 1) := by omega
    rw [goFetch_step hpg0 ht hguard hlast,
      ih b' (pg + 1) (by omega) hmid' (by rw [hidx]; exact h0) (by rw [hidx]; exact hne)
        (by rw [hidx]; exact hbd)]
    simp [concatFrom, ht, hidx]

/-- Any successful fetch result is a sublist of the pages it can have
visited. -/
theorem goFetch_sublist (pages : Nat → ApiPage) (lt : Int) :
    ∀ (b pg : Nat) (l : List Thread), goFetch pages lt pg b = .ok l →
      List.Sublist l (concatFrom pages pg (b + 1)) := by
  intro b
  induction b with
  | zero =>
    intro pg l h
    by_cases h0 : (pages pg).errno = 0
    · cases ht : (pages pg).threads with
      | nil =>
        rw [goFetch_empty 0 h0 ht] at h
        simp at h
      | cons t ts =>
        rw [goFetch_all h0 ht (Or.inr rfl)] at h
        simp only [Except.ok.injEq] at h
        subst h
        simp [concatFrom, ht]
    · rw [goFetch_errno 0 h0] at h
      simp at h
  | succ b ih =>
    intro pg l h
    by_cases h0 : (pages pg).errno = 0
    · cases ht : (pages pg).threads with
      | nil =>
        rw [goFetch_empty (b + 1) h0 ht] at h
        simp at h
      | cons t ts =>
        by_cases hstop : lt ≤ 0 ∨ b + 1 = 0
        · rw [goFetch_all h0 ht hstop] at h
          simp only [Except.ok.injEq] at h
          subst h
          simp only [concatFrom, ht]
          exact List.sublist_append_left _ _
        · by_cases hlast : (((t :: ts).getLast (List.cons_ne_nil t ts)).tid : Int) ≤ lt
          · rw [goFetch_boundary h0 ht hstop hlast] at h
            simp only [Except.ok.injEq] at h
            subst h
            simp only [concatFrom, ht]
            exact ((t :: ts).filter_sublist).trans (List.sublist_append_left _ _)
          · rw [goFetch_step h0 ht hstop hlast] at h
            cases hrec : goFetch pages lt (pg + 1) b with
            | error e =>
              rw [hrec] at h
              simp at h
            | ok rest =>
              rw [hrec] at h
              simp only [Except.ok.injEq] at h
              subst h
              simp only [concatFrom, ht]
              have hsub := ih (pg + 1) rest hrec
              exact List.Sublist.append_left hsub (t :: ts)
    · rw [goFetch_errno (b + 1) h0] at h
      simp at h

/-- With a positive watermark and page 1 sorted newest-first, the first
element of a successful fetch (the newest thread overall) is strictly
newer than the watermark. -/
theorem goFetch_head_gt (pages : Nat → ApiPage) (lt : Int) (hlt : 0 < lt)
    (hsor : (pages 1).threads.Pairwise (fun a b => b.tid ≤ a.tid)) :
    ∀ (b : Nat) (l : List Thread), goFetch pages lt 1 (b + 1) = .ok l →
      ∀ x, l.head? = some x → lt < (x.tid : Int) := by
  intro b l h x hx
  by_cases h0 : (pages 1).errno = 0
  · cases ht : (pages 1).threads with
    | nil =>
      rw [goFetch_empty (b + 1) h0 ht] at h
      simp at h
    | cons t ts =>
      rw [ht] at hsor
      have hstop : ¬ (lt ≤ 0 ∨ b + 1 = 0) := by
        rw [not_or]
        exact ⟨by omega, by omega⟩
      by_cases hlast : (((t :: ts).getLast (List.cons_ne_nil t ts)).tid : Int) ≤ lt
      · rw [goFetch_boundary h0 ht hstop hlast] at h
        simp only [Except.ok.injEq] at h
        subst h
        have hxmem := mem_of_head?' hx
        obtain ⟨-, hdec⟩ := List.mem_filter.mp hxmem
        exact of_decide_eq_true hdec
      · rw [goFetch_step h0 ht hstop hlast] at h
        cases hrec : goFetch pages lt (1 + 1) b with
        | error e =>
          rw [hrec] at h
          simp at h
        | ok rest =>
          rw [hrec] at h
          simp only [Except.ok.injEq] at h
          subst h
          have hxt : x = t := by
            rw [List.cons_append, List.head?_cons, Option.some.injEq] at hx
            exact hx.symm
          rw [hxt]
          have hle := pairwise_getLast_le (List.cons_ne_nil t ts) hsor t
            (List.mem_cons_self t ts)
          have hc : (((t :: ts).getLast (List.cons_ne_nil t ts)).tid : Int) ≤ (t.tid : Int) := by
            exact_mod_cast hle
          omega
  · rw [goFetch_errno (b + 1) h0] at h
    simp at h

/-! ### Run-loop lemmas -/

theorem inline_goFetch (pages : Nat → ApiPage) (lt : Int) :
    inline_get_gradapp_threads pages lt 1 1 = goFetch pages lt 1 4 := rfl

theorem get_gradapp_threads_eq (pages : Nat → ApiPage) (lt : Int) :
    get_gradapp_threads pages lt = (goFetch pages lt 1 4).map List.reverse := rfl

/-- In every run, the delivered identifiers are a prefix of the persisted
ones, at most one identifier is persisted beyond those delivered, and
unless a delivery raised, the two sequences agree exactly. -/
theorem check_loop_spec (pOK dOK : Nat → Bool) :
    ∀ (ts : List (Thread × DetailsMap)) (i : Nat) (st : BotState),
      (check_loop pOK dOK ts i st).delivered <+: (check_loop pOK dOK ts i st).persisted ∧
      (check_loop pOK dOK ts i st).persisted.length ≤
        (check_loop pOK dOK ts i st).delivered.length + 1 ∧
      ((check_loop pOK dOK ts i st).stop ≠ .deliverFailed →
        (check_loop pOK dOK ts i st).delivered = (check_loop pOK dOK ts i st).persisted) := by
  intro ts
  induction ts with
  | nil =>
    intro i st
    exact ⟨⟨[], rfl⟩, by simp [check_loop], fun _ => rfl⟩
  | cons t ts ih =>
    intro i st
    by_cases hc : st.cache = []
    · simp only [check_loop, set_last_tid, if_pos hc]
      refine ⟨List.nil_prefix, ?_, ?_⟩
      · simp
      · intro _
        trivial
    · by_cases hp : pOK i = true
      · by_cases hd : dOK i = true
        · simp only [check_loop, set_last_tid, if_neg hc, hp, if_true, hd]
          obtain ⟨ihp, ihl, ihs⟩ := ih (i + 1) ⟨reSubLastTid t.1.tid st.cache,
            reSubLastTid t.1.tid st.cache⟩
          refine ⟨?_, ?_, ?_⟩
          · obtain ⟨u, hu⟩ := ihp
            exact ⟨u, by simp [hu]⟩
          · simp only [List.length_cons]
            omega
          · intro hs
            have heq := ihs hs
            simp [heq]
        · have hd' : dOK i = false := by
            cases hdv : dOK i
            · rfl
            · exact absurd hdv hd
          simp only [check_loop, set_last_tid, if_neg hc, hp, if_true, hd']
          refine ⟨List.nil_prefix, by simp, fun hs => absurd rfl hs⟩
      · have hp' : pOK i = false := by
          cases hpv : pOK i
          · rfl
          · exact absurd hpv hp
        simp only [check_loop, set_last_tid, if_neg hc, hp']
        exact ⟨List.nil_prefix, by simp, fun _ => rfl⟩

/-- A run in which every persist and every delivery succeeds, starting
from a non-empty cached description, delivers every thread in order,
persists every identifier, completes, and leaves the iterated
substitution as the final description. -/
theorem check_loop_all_ok :
    ∀ (ts : List (Thread × DetailsMap)) (i : Nat) (st : BotState), st.cache ≠ [] →
      check_loop (fun _ => true) (fun _ => true) ts i st =
        ⟨if ts = [] then st else
            ⟨iterSub (ts.map fun p => p.1.tid) st.cache,
              iterSub (ts.map fun p => p.1.tid) st.cache⟩,
          ts.map (fun p => p.1.tid), ts.map (fun p => p.1.tid), .completed⟩ := by
  intro ts
  induction ts with
  | nil =>
    intro i st _
    simp [check_loop]
  | cons t ts ih =>
    intro i st hc
    simp only [check_loop, set_last_tid, if_neg hc, if_true]
    rw [ih (i + 1) ⟨reSubLastTid t.1.tid st.cache, reSubLastTid t.1.tid st.cache⟩
      (reSub_ne_nil _ hc)]
    rw [if_neg (List.cons_ne_nil t ts)]
    have hit : iterSub ((t :: ts).map fun p => p.1.tid) st.cache =
        iterSub (ts.map fun p => p.1.tid) (reSubLastTid t.1.tid st.cache) := rfl
    rw [hit]
    by_cases hts : ts = []
    · subst hts
      simp [iterSub]
    · rw [if_neg hts]
      simp

/-- After iterated substitutions into a description containing the
pattern, the extracted watermark is the last substituted identifier. -/
theorem extract_iterSub :
    ∀ (tids : List Nat) (s : Str), reFindallLastTid s ≠ [] →
      ∀ t, tids.getLast? = some t → extractLastTid (iterSub tids s) = (t : Int) := by
  intro tids
  induction tids with
  | nil =>
    intro s _ t ht
    simp at ht
  | cons a tids ih =>
    intro s hs t ht
    cases tids with
    | nil =>
      simp only [List.getLast?_singleton, Option.some.injEq] at ht
      rw [← ht]
      exact extract_reSub a s hs
    | cons b tids2 =>
      have hrw : iterSub (a :: b :: tids2) s = iterSub (b :: tids2) (reSubLastTid a s) := rfl
      rw [hrw]
      refine ih (reSubLastTid a s) (reFindall_reSub_ne a s hs) t ?_
      rw [← List.getLast?_cons_cons]
      exact ht

theorem concatFrom_succ_right (pages : Nat → ApiPage) :
    ∀ (n pg : Nat), concatFrom pages pg (n + 1) =
      concatFrom pages pg n ++ (pages (pg + n)).threads := by
  intro n
  induction n with
  | zero =>
    intro pg
    simp [concatFrom]
  | succ n ih =>
    intro pg
    show (pages pg).threads ++ concatFrom pages (pg + 1) (n + 1) = _
    rw [ih (pg + 1)]
    have hidx : pg + 1 + n = pg + (n + 1) := by omega
    rw [hidx]
    simp [concatFrom]

theorem mem_concatFrom (pages : Nat → ApiPage) :
    ∀ (n pg : Nat) (x : Thread), x ∈ concatFrom pages pg n →
      ∃ i, pg ≤ i ∧ i < pg + n ∧ x ∈ (pages i).threads := by
  intro n
  induction n with
  | zero =>
    intro pg x hx
    simp [concatFrom] at hx
  | succ n ih =>
    intro pg x hx
    rcases List.mem_append.mp hx with hx | hx
    · exact ⟨pg, le_refl _, by omega, hx⟩
    · obtain ⟨i, h1, h2, h3⟩ := ih (pg + 1) x hx
      exact ⟨i, by omega, by omega, h3⟩

theorem concatFrom_page_sublist (pages : Nat → ApiPage) :
    ∀ (n pg i : Nat), pg ≤ i → i < pg + n →
      List.Sublist (pages i).threads (concatFrom pages pg n) := by
  intro n
  induction n with
  | zero =>
    intro pg i h1 h2
    omega
  | succ n ih =>
    intro pg i h1 h2
    by_cases hi : i = pg
    · subst hi
      exact List.sublist_append_left _ _
    · have hsub := ih (pg + 1) i (by omega) (by omega)
      show List.Sublist (pages i).threads ((pages pg).threads ++ concatFrom pages (pg + 1) n)
      exact hsub.trans (List.sublist_append_right _ _)

/-- Deliveries happen in the order of the input list: the delivered
identifiers are always a prefix of the items' identifiers in order. -/
theorem check_loop_delivered_prefix (pOK dOK : Nat → Bool) :
    ∀ (ts : List (Thread × DetailsMap)) (i : Nat) (st : BotState),
      (check_loop pOK dOK ts i st).delivered <+: ts.map (fun p => p.1.tid) := by
  intro ts
  induction ts with
  | nil =>
    intro i st
    exact ⟨[], rfl⟩
  | cons t ts ih =>
    intro i st
    by_cases hc : st.cache = []
    · simp only [check_loop, set_last_tid, if_pos hc]
      exact List.nil_prefix
    · by_cases hp : pOK i = true
      · by_cases hd : dOK i = true
        · simp only [check_loop, set_last_tid, if_neg hc, hp, if_true, hd]
          obtain ⟨u, hu⟩ := ih (i + 1) ⟨reSubLastTid t.1.tid st.cache,
            reSubLastTid t.1.tid st.cache⟩
          exact ⟨u, by simp [hu]⟩
        · have hd' : dOK i = false := by
            cases hdv : dOK i
            · rfl
            · exact absurd hdv hd
          simp only [check_loop, set_last_tid, if_neg hc, hp, if_true, hd']
          exact List.nil_prefix
      · have hp' : pOK i = false := by
          cases hpv : pOK i
          · rfl
          · exact absurd hpv hp
        simp only [check_loop, set_last_tid, if_neg hc, hp']
        exact List.nil_prefix

/-- A successful `check_and_push` run is exactly: a successful fetch, the
reversal, per-item enrichment, and the per-item loop started on the cached
description. -/
theorem check_and_push_ok (pages : Nat → ApiPage) (tables : List OptionTable)
    (df : Nat → Except PyErr (Int × List ApiOption)) (pOK dOK : Nat → Bool)
    (remote : Str) (tr : RunTrace) :
    check_and_push pages tables df pOK dOK remote = .ok tr →
    ∃ l, goFetch pages (extractLastTid remote) 1 4 = .ok l ∧
      tr = check_loop pOK dOK
        ((l.reverse).map (fun t => (t, get_thread_details tables (df t.tid))))
        0 ⟨remote, remote⟩ := by
  have hunfold : check_and_push pages tables df pOK dOK remote =
      (((goFetch pages (extractLastTid remote) 1 4).map List.reverse).map
        (List.map (fun t => (t, get_thread_details tables (df t.tid))))).map
        (fun ts => check_loop pOK dOK ts 0 ⟨remote, remote⟩) := rfl
  intro h
  rw [hunfold] at h
  cases hgf : goFetch pages (extractLastTid remote) 1 4 with
  | error e =>
    rw [hgf] at h
    simp [Except.map] at h
  | ok l =>
    rw [hgf] at h
    simp only [Except.map, Except.ok.injEq] at h
    exact ⟨l, rfl, h.symm⟩

/-! ### Claim theorems -/

/-- C6: when the first listing page carries zero items (with a success
error code), the fetch raises `emptyPage` — it never returns an empty
"no new items" result — and the error propagates out of
`check_and_push` to the top-level handler. -/
theorem c6_empty_first_page_fails (pages : Nat → ApiPage) (lt : Int)
    (h0 : (pages 1).errno = 0) (he : (pages 1).threads = []) :
    get_gradapp_threads pages lt = .error .emptyPage ∧
    (∀ res, get_gradapp_threads pages lt ≠ .ok res) ∧
    (∀ tables df pOK dOK remote, extractLastTid remote = lt →
      check_and_push pages tables df pOK dOK remote = .error .emptyPage) := by
  have h1 : get_gradapp_threads pages lt = .error .emptyPage := by
    rw [get_gradapp_threads_eq, goFetch_empty 4 h0 he]
    rfl
  refine ⟨h1, ?_, ?_⟩
  · intro res hres
    rw [h1] at hres
    exact absurd hres (by simp)
  · intro tables df pOK dOK remote hw
    have hunf : check_and_push pages tables df pOK dOK remote =
        (((goFetch pages (extractLastTid remote) 1 4).map List.reverse).map
          (List.map (fun t => (t, get_thread_details tables (df t.tid))))).map
          (fun ts => check_loop pOK dOK ts 0 ⟨remote, remote⟩) := rfl
    rw [hunf, hw, goFetch_empty 4 h0 he]
    rfl

theorem c6_witness :
    get_gradapp_threads emptyPages 100 = .error .emptyPage ∧
    check_and_push emptyPages [] noDetails (fun _ => true) (fun _ => true) witDesc =
      .error .emptyPage := by
  obtain ⟨h1, -, h3⟩ := c6_empty_first_page_fails emptyPages 100 rfl rfl
  exact ⟨h1, h3 [] noDetails (fun _ => true) (fun _ => true) witDesc (by decide)⟩

/-- C9: a failed or error-coded detail fetch yields an empty details
mapping through the `no_exception` decorator instead of raising, and the
enrichment step keeps every fetched item (in order) regardless of the
detail oracle, so the run continues with the remaining items. -/
theorem c9_detail_failure_empty (tables : List OptionTable) :
    (∀ e, get_thread_details tables (.error e) = []) ∧
    (∀ errno opts, errno ≠ 0 → get_thread_details tables (.ok (errno, opts)) = []) ∧
    (∀ pages df lt l, get_gradapp_threads pages lt = .ok l →
      get_gradapp_threads_with_details pages tables df lt =
        .ok (l.map (fun t => (t, get_thread_details tables (df t.tid))))) := by
  refine ⟨?_, ?_, ?_⟩
  · intro e
    rfl
  · intro errno opts herr
    show no_exception [] (if errno ≠ 0 then throw .assertFailed
      else pure (translateOptions tables opts)) = []
    rw [if_pos herr]
    rfl
  · intro pages df lt l hl
    simp only [get_gradapp_threads_with_details, hl, Except.map]

theorem c9_witness :
    get_thread_details cex7Tables (.error .httpError) = [] ∧
    get_thread_details cex7Tables (.ok (2, [])) = [] ∧
    get_gradapp_threads_with_details witPages cex7Tables noDetails 100 =
      .ok [(mkThread 101, []), (mkThread 102, []), (mkThread 103, []),
        (mkThread 104, []), (mkThread 105, [])] := by
  obtain ⟨h1, h2, h3⟩ := c9_detail_failure_empty cex7Tables
  refine ⟨h1 .httpError, h2 2 [] (by decide), ?_⟩
  have hfetch := h3 witPages noDetails 100
    [mkThread 101, mkThread 102, mkThread 103, mkThread 104, mkThread 105] (by rfl)
  rw [hfetch]
  rfl

/-- C10: when the cached description is non-empty but contains no
`last-tid=<digits>` occurrence, `set_last_tid` persists the identical
description, reports success, and the watermark value is not recorded
(the extracted watermark stays `-1`, never `tid`). -/
theorem c10_missing_pattern_silent_noop (tid : Nat) (remote desc : Str)
    (hne : desc ≠ []) (hnf : reFindallLastTid desc = []) :
    set_last_tid true tid ⟨remote, desc⟩ = (true, ⟨desc, desc⟩) ∧
    extractLastTid desc = -1 ∧
    extractLastTid desc ≠ (tid : Int) := by
  have hext : extractLastTid desc = -1 := by
    simp only [extractLastTid, hnf]
  refine ⟨?_, hext, ?_⟩
  · simp only [set_last_tid]
    rw [if_neg hne, reSub_id_of_findall_nil tid hnf]
    rfl
  · rw [hext]
    omega

theorem c10_witness :
    set_last_tid true 123 ⟨"x".data, "hello".data⟩ =
      (true, ⟨"hello".data, "hello".data⟩) ∧
    extractLastTid "hello".data = -1 ∧
    extractLastTid "hello".data ≠ (123 : Int) :=
  c10_missing_pattern_silent_noop 123 "x".data "hello".data (by decide) (by decide)

theorem dictInsert_forall {α : Type} {P : Str × α → Prop} (d : List (Str × α))
    (k : Str) (v : α) (hd : ∀ kv ∈ d, P kv) (hkv : P (k, v)) :
    ∀ kv ∈ dictInsert d k v, P kv := by
  intro kv hkv'
  simp only [dictInsert] at hkv'
  split at hkv'
  · rcases List.mem_map.mp hkv' with ⟨p, hp, heq⟩
    rw [← heq]
    by_cases hpk : p.1 = k
    · rw [if_pos hpk]
      exact hkv
    · rw [if_neg hpk]
      exact hd p hp
  · rcases List.mem_append.mp hkv' with hkv' | hkv'
    · exact hd kv hkv'
    · rcases List.mem_singleton.mp hkv' with rfl
      exact hkv

theorem pyDict_forall {α : Type} {P : Str × α → Prop} :
    ∀ (ps d : List (Str × α)), (∀ kv ∈ d, P kv) → (∀ kv ∈ ps, P kv) →
      ∀ kv ∈ ps.foldl (fun d p => dictInsert d p.1 p.2) d, P kv := by
  intro ps
  induction ps with
  | nil =>
    intro d hd _ kv hkv
    exact hd kv hkv
  | cons p ps ih =>
    intro d hd hps kv hkv
    rw [List.foldl_cons] at hkv
    refine ih (dictInsert d p.1 p.2) ?_ (fun q hq => hps q (List.mem_cons_of_mem _ hq)) kv hkv
    refine dictInsert_forall d p.1 p.2 hd ?_
    have hp := hps p (List.mem_cons_self p ps)
    simpa using hp

/-- C7 (amended): in the legacy HTML strategy, every row whose value
contains a lock-marker substring is dropped from the returned mapping.
The JSON options strategy performs no such filtering (see the
counterexample). -/
theorem c7_legacy_drops_locked_rows (fetch : Except PyErr (List (Str × Str))) :
    ∀ kv ∈ get_thread_details_legacy fetch, ∀ m ∈ contentLockedMarkers,
      ¬ (m <:+: kv.2) := by
  intro kv hkv m hm
  cases fetch with
  | error e => simp [get_thread_details_legacy, no_exception, Except.map] at hkv
  | ok rows =>
    have hkv' : kv ∈ pyDict (((rows.map (fun row =>
        (pyRstrip (fun c => c = ':') row.1, pyStrip Char.isWhitespace row.2))).filter
        (fun q => ¬ contentLockedMarkers.any (fun s => decide (s <:+: q.2))))) := hkv
    have hP : ∀ q ∈ ((rows.map (fun row =>
        (pyRstrip (fun c => c = ':') row.1, pyStrip Char.isWhitespace row.2))).filter
        (fun q => ¬ contentLockedMarkers.any (fun s => decide (s <:+: q.2)))),
        ∀ m' ∈ contentLockedMarkers, ¬ (m' <:+: q.2) := by
      intro q hq m' hm' hinf
      obtain ⟨-, hdec⟩ := List.mem_filter.mp hq
      have hnot := of_decide_eq_true hdec
      exact hnot (List.any_eq_true.mpr ⟨m', hm', decide_eq_true hinf⟩)
    exact pyDict_forall _ [] (by simp) hP kv hkv' m hm

/-- C7 counterexample: the JSON options strategy — the one
`get_gradapp_threads_with_details` uses — stores a detail row whose value
is the lock marker `隐藏内容` itself, so the row is present in the
returned mapping, not dropped. -/
theorem c7_counterexample :
    get_thread_details cex7Tables cex7Fetch = [("备注".data, some "隐藏内容".data)] ∧
    "隐藏内容".data <:+: "隐藏内容".data := by
  exact ⟨rfl, List.infix_rfl⟩

theorem c7_witness : ¬ ("隐藏内容".data <:+: ("MIT".data : Str)) :=
  c7_legacy_drops_locked_rows (.ok [("学校".data, "MIT".data)])
    ("学校".data, "MIT".data) (by decide) "隐藏内容".data (by decide)

/-- C3: with a positive watermark and the lookback depth not exhausted,
when the oldest item of page `1 + j` is `≤` the watermark (and the pages
are sorted newest-first), the fetch returns exactly the accumulated items
with identifier strictly greater than the watermark; an item with
identifier equal to the watermark is excluded. -/
theorem c3_boundary_strict_filter (pages : Nat → ApiPage) (lt : Int) (j : Nat)
    (hlt : 0 < lt) (hj : j < 4)
    (hmid : ∀ i, 1 ≤ i → i < 1 + j → (pages i).errno = 0 ∧ (pages i).threads ≠ [] ∧
      (∀ x, (pages i).threads.getLast? = some x → lt < (x.tid : Int)))
    (h0 : (pages (1 + j)).errno = 0) (hne : (pages (1 + j)).threads ≠ [])
    (hbd : ∀ x, (pages (1 + j)).threads.getLast? = some x → (x.tid : Int) ≤ lt)
    (hsor : (concatFrom pages 1 (j + 1)).Pairwise (fun a b => b.tid ≤ a.tid)) :
    get_gradapp_threads pages lt =
      .ok (((concatFrom pages 1 (j + 1)).filter (fun u => lt < (u.tid : Int))).reverse) ∧
    (∀ res, get_gradapp_threads pages lt = .ok res →
      ∀ x ∈ res, lt < (x.tid : Int) ∧ (x.tid : Int) ≠ lt) := by
  have hraw := goFetch_reach_boundary pages lt hlt j 4 1 hj hmid h0 hne hbd
  have hfe : concatFrom pages 1 j ++
      (pages (1 + j)).threads.filter (fun u => lt < (u.tid : Int)) =
      (concatFrom pages 1 (j + 1)).filter (fun u => lt < (u.tid : Int)) := by
    rw [concatFrom_succ_right pages j 1, List.filter_append]
    congr 1
    refine (List.filter_eq_self.mpr ?_).symm
    intro a ha
    obtain ⟨i, hi1, hi2, hai⟩ := mem_concatFrom pages j 1 a ha
    obtain ⟨hie, hin, hilast⟩ := hmid i hi1 hi2
    obtain ⟨t, ts, hti⟩ : ∃ t ts, (pages i).threads = t :: ts := by
      cases hth : (pages i).threads with
      | nil => exact absurd hth hin
      | cons t ts => exact ⟨t, ts, rfl⟩
    have hsubp := concatFrom_page_sublist pages (j + 1) 1 i hi1 (by omega)
    have hpw := hsor.sublist hsubp
    rw [hti] at hpw hai
    have hlastv := hilast ((t :: ts).getLast (List.cons_ne_nil t ts))
      (by rw [hti]; exact (List.getLast?_eq_getLast _ _).symm)
    have hge := pairwise_getLast_le (List.cons_ne_nil t ts) hpw a hai
    have hcast : (((t :: ts).getLast (List.cons_ne_nil t ts)).tid : Int) ≤ (a.tid : Int) := by
      exact_mod_cast hge
    exact decide_eq_true (by omega)
  have h1 : get_gradapp_threads pages lt =
      .ok (((concatFrom pages 1 (j + 1)).filter (fun u => lt < (u.tid : Int))).reverse) := by
    rw [get_gradapp_threads_eq, hraw]
    simp only [Except.map]
    rw [hfe]
  refine ⟨h1, ?_⟩
  intro res hres x hx
  rw [h1] at hres
  simp only [Except.ok.injEq] at hres
  subst hres
  have hx' := List.mem_reverse.mp hx
  obtain ⟨-, hdec⟩ := List.mem_filter.mp hx'
  have hgt := of_decide_eq_true hdec
  exact ⟨hgt, by omega⟩

theorem c3_witness :
    get_gradapp_threads witPages 100 =
      .ok [mkThread 101, mkThread 102, mkThread 103, mkThread 104, mkThread 105] := by
  have h := (c3_boundary_strict_filter witPages 100 0 (by omega) (by omega)
    (fun i h1 h2 => absurd h2 (by omega))
    (by decide) (by decide)
    (fun x hx => by
      rw [show (witPages (1 + 0)).threads.getLast? = some (mkThread 86) from rfl,
        Option.some.injEq] at hx
      rw [← hx]
      decide)
    (by decide)).1
  rw [h]
  rfl

/-- C4: the fetch never requests a page beyond page 5 (its result depends
only on pages 1–5), and when the watermark is older than everything on
those pages the run stops at the depth bound treating all five pages'
items as new, unfiltered. -/
theorem c4_depth_bound :
    (∀ (pages pages' : Nat → ApiPage) (lt : Int),
      (∀ i, 1 ≤ i → i ≤ 5 → pages i = pages' i) →
      get_gradapp_threads pages lt = get_gradapp_threads pages' lt) ∧
    (∀ (pages : Nat → ApiPage) (lt : Int), 0 < lt →
      (∀ i, 1 ≤ i → i < 5 → (pages i).errno = 0 ∧ (pages i).threads ≠ [] ∧
        (∀ x, (pages i).threads.getLast? = some x → lt < (x.tid : Int))) →
      (pages 5).errno = 0 → (pages 5).threads ≠ [] →
      get_gradapp_threads pages lt = .ok ((concatFrom pages 1 5).reverse)) := by
  constructor
  · intro pages pages' lt h
    rw [get_gradapp_threads_eq, get_gradapp_threads_eq,
      goFetch_congr pages pages' lt 4 1 (fun i h1 h2 => h i h1 (by omega))]
  · intro pages lt hlt hmid h0 hne
    rw [get_gradapp_threads_eq,
      goFetch_exhaust pages lt hlt 4 1 (fun i h1 h2 => hmid i h1 (by omega)) h0 hne]
    rfl

theorem c4_witness :
    get_gradapp_threads cex2Pages 1000 = get_gradapp_threads cex2PagesJunk 1000 ∧
    get_gradapp_threads cex2Pages 1000 =
      .ok [mkThread 999, mkThread 2001, mkThread 2002, mkThread 2003, mkThread 2004] := by
  obtain ⟨hcong, hexh⟩ := c4_depth_bound
  constructor
  · refine hcong cex2Pages cex2PagesJunk 1000 ?_
    intro i h1 h2
    show cex2Pages i = if i ≤ 5 then cex2Pages i else ⟨7, []⟩
    rw [if_pos h2]
  · have hmid : ∀ i, 1 ≤ i → i < 5 → (cex2Pages i).errno = 0 ∧
        (cex2Pages i).threads ≠ [] ∧
        (∀ x, (cex2Pages i).threads.getLast? = some x → (1000 : Int) < (x.tid : Int)) := by
      intro i h1 h2
      have hc : cex2Pages i = ⟨0, [mkThread (2005 - i)]⟩ := by
        show (if i ≤ 4 then (⟨0, [mkThread (2005 - i)]⟩ : ApiPage)
          else ⟨0, [mkThread 999]⟩) = _
        rw [if_pos (by omega)]
      refine ⟨by rw [hc], by rw [hc]; simp, ?_⟩
      intro x hx
      rw [hc, List.getLast?_singleton, Option.some.injEq] at hx
      rw [← hx]
      show (1000 : Int) < ((2005 - i : Nat) : Int)
      have : (2001 : Nat) ≤ 2005 - i := by omega
      exact_mod_cast by omega
    have h := hexh cex2Pages 1000 (by omega) hmid (by decide) (by decide)
    rw [h]
    rfl

/-- C5: when the pages are sorted newest-first (the concatenation of
pages 1–5 is non-increasing in identifier), the fetched sequence is
ascending in identifier, and every run delivers a prefix of that
ascending identifier sequence, in that order. -/
theorem c5_ascending_delivery_order (pages : Nat → ApiPage) (lt : Int) (l : List Thread)
    (hsor : (concatFrom pages 1 5).Pairwise (fun a b => b.tid ≤ a.tid))
    (hfetch : get_gradapp_threads pages lt = .ok l) :
    l.Pairwise (fun a b => a.tid ≤ b.tid) ∧
    (∀ tables df pOK dOK remote tr, extractLastTid remote = lt →
      check_and_push pages tables df pOK dOK remote = .ok tr →
      tr.delivered <+: l.map Thread.tid ∧
      tr.delivered.Pairwise (fun a b => a ≤ b)) := by
  rw [get_gradapp_threads_eq] at hfetch
  cases hgf : goFetch pages lt 1 4 with
  | error e =>
    rw [hgf] at hfetch
    simp [Except.map] at hfetch
  | ok l' =>
    rw [hgf] at hfetch
    simp only [Except.map, Except.ok.injEq] at hfetch
    subst hfetch
    have hdesc : l'.Pairwise (fun a b => b.tid ≤ a.tid) :=
      hsor.sublist (goFetch_sublist pages lt 4 1 l' hgf)
    have hasc : l'.reverse.Pairwise (fun a b => a.tid ≤ b.tid) := by
      rw [List.pairwise_reverse]
      exact hdesc
    refine ⟨hasc, ?_⟩
    intro tables df pOK dOK remote tr hw hrun
    obtain ⟨l'', hgf'', htr⟩ := check_and_push_ok pages tables df pOK dOK remote tr hrun
    rw [hw, hgf] at hgf''
    simp only [Except.ok.injEq] at hgf''
    subst hgf''
    subst htr
    have hpre := check_loop_delivered_prefix pOK dOK
      ((l'.reverse).map (fun t => (t, get_thread_details tables (df t.tid)))) 0
      ⟨remote, remote⟩
    have hmap : (((l'.reverse).map (fun t => (t, get_thread_details tables (df t.tid)))).map
        (fun p => p.1.tid)) = l'.reverse.map Thread.tid := by
      rw [List.map_map]
      rfl
    rw [hmap] at hpre
    exact ⟨hpre, (List.pairwise_map.mpr hasc).sublist hpre.sublist⟩

theorem c5_witness :
    ([mkThread 101, mkThread 102, mkThread 103, mkThread 104, mkThread 105] :
      List Thread).Pairwise (fun a b => a.tid ≤ b.tid) ∧
    (runTraceOf witRun).delivered <+:
      ([mkThread 101, mkThread 102, mkThread 103, mkThread 104,
        mkThread 105].map Thread.tid) := by
  obtain ⟨h1, h2⟩ := c5_ascending_delivery_order witPages 100
    [mkThread 101, mkThread 102, mkThread 103, mkThread 104, mkThread 105]
    (by decide) rfl
  exact ⟨h1, (h2 [] noDetails (fun _ => true) (fun _ => true) witDesc
    (runTraceOf witRun) (by decide) rfl).1⟩

theorem check_loop_all_ok_delivered (ts : List (Thread × DetailsMap)) (i : Nat)
    (st : BotState) (hc : st.cache ≠ []) :
    (check_loop (fun _ => true) (fun _ => true) ts i st).delivered =
      ts.map (fun p => p.1.tid) := by
  simp only [check_loop_all_ok ts i st hc]

theorem check_loop_all_ok_persisted (ts : List (Thread × DetailsMap)) (i : Nat)
    (st : BotState) (hc : st.cache ≠ []) :
    (check_loop (fun _ => true) (fun _ => true) ts i st).persisted =
      ts.map (fun p => p.1.tid) := by
  simp only [check_loop_all_ok ts i st hc]

theorem check_loop_all_ok_stop (ts : List (Thread × DetailsMap)) (i : Nat)
    (st : BotState) (hc : st.cache ≠ []) :
    (check_loop (fun _ => true) (fun _ => true) ts i st).stop = .completed := by
  simp only [check_loop_all_ok ts i st hc]

theorem check_loop_all_ok_state_ne (ts : List (Thread × DetailsMap)) (i : Nat)
    (st : BotState) (hc : st.cache ≠ []) (hts : ts ≠ []) :
    (check_loop (fun _ => true) (fun _ => true) ts i st).state =
      ⟨iterSub (ts.map fun p => p.1.tid) st.cache,
        iterSub (ts.map fun p => p.1.tid) st.cache⟩ := by
  simp only [check_loop_all_ok ts i st hc]
  rw [if_neg hts]

theorem check_loop_all_ok_state_nil (i : Nat) (st : BotState) :
    (check_loop (fun _ => true) (fun _ => true) [] i st).state = st := rfl

/-- C1 counterexample: a run in which every persist succeeds and the only
delivery fails. The watermark is persisted as 101 even though item 101
was never delivered, and the persist happened before the delivery
attempt — refuting both the deliver-before-persist order and the
never-advance-past-undelivered invariant. -/
theorem c1_counterexample :
    (runTraceOf cex1Run).persisted = [101] ∧
    extractLastTid (runTraceOf cex1Run).state.remote = 101 ∧
    (runTraceOf cex1Run).delivered = [] ∧
    (runTraceOf cex1Run).stop = .deliverFailed := by
  decide

/-- C1 (amended): the watermark store persists each item's identifier
before the notifier delivers it; the delivered identifiers are always a
prefix of the persisted ones with at most one extra persisted identifier
(the item whose delivery failed), and when no delivery raised, the two
sequences coincide. -/
theorem c1_persist_precedes_delivery (pages : Nat → ApiPage)
    (tables : List OptionTable) (df : Nat → Except PyErr (Int × List ApiOption))
    (pOK dOK : Nat → Bool) (remote : Str) (tr : RunTrace)
    (hrun : check_and_push pages tables df pOK dOK remote = .ok tr) :
    tr.delivered <+: tr.persisted ∧
    tr.persisted.length ≤ tr.delivered.length + 1 ∧
    (tr.stop ≠ .deliverFailed → tr.delivered = tr.persisted) := by
  obtain ⟨l, -, htr⟩ := check_and_push_ok pages tables df pOK dOK remote tr hrun
  subst htr
  exact check_loop_spec pOK dOK _ 0 ⟨remote, remote⟩

theorem c1_witness :
    (runTraceOf cex2Run).delivered <+: (runTraceOf cex2Run).persisted ∧
    (runTraceOf cex2Run).persisted.length ≤ (runTraceOf cex2Run).delivered.length + 1 ∧
    ((runTraceOf cex2Run).stop ≠ .deliverFailed →
      (runTraceOf cex2Run).delivered = (runTraceOf cex2Run).persisted) :=
  c1_persist_precedes_delivery cex2Pages [] noDetails (fun _ => true) (fun _ => true)
    cex2Desc (runTraceOf cex2Run) rfl

/-- C2 counterexample: a fully successful run (watermark 1000, five pages,
depth bound exhausted) in which the stale item 999 is delivered and
persisted first, so the persisted watermark transiently decreases from
1000 to 999 — refuting "the watermark never decreases" as a blanket
invariant. -/
theorem c2_counterexample :
    extractLastTid cex2Desc = 1000 ∧
    (runTraceOf cex2Run).stop = .completed ∧
    (runTraceOf cex2Run).delivered = [999, 2001, 2002, 2003, 2004] ∧
    (runTraceOf cex2Run).persisted.head? = some 999 ∧
    (999 : Int) < 1000 := by
  decide

/-- C2 (amended): a run that completes with every persist and delivery
succeeding, from a description containing the watermark pattern and
sorted pages, delivers exactly what it persists, in non-decreasing
identifier order; the final watermark is `≥` the pre-run watermark and
equals the identifier of the last item delivered (unchanged when nothing
was delivered). Within the run the persisted watermark may transiently
drop below the pre-run value when the depth bound is exhausted (see the
counterexample), so only the run-level comparison holds. -/
theorem c2_monotone_final_watermark (pages : Nat → ApiPage) (tables : List OptionTable)
    (df : Nat → Except PyErr (Int × List ApiOption)) (remote : Str) (tr : RunTrace)
    (hsor : (concatFrom pages 1 5).Pairwise (fun a b => b.tid ≤ a.tid))
    (hfind : reFindallLastTid remote ≠ [])
    (hrun : check_and_push pages tables df (fun _ => true) (fun _ => true) remote = .ok tr) :
    tr.stop = .completed ∧
    tr.delivered = tr.persisted ∧
    tr.delivered.Pairwise (fun a b => a ≤ b) ∧
    extractLastTid remote ≤ extractLastTid tr.state.remote ∧
    (∀ x, tr.delivered.getLast? = some x → extractLastTid tr.state.remote = (x : Int)) ∧
    (tr.delivered = [] → tr.state.remote = remote) := by
  obtain ⟨l, hgf, htr⟩ :=
    check_and_push_ok pages tables df (fun _ => true) (fun _ => true) remote tr hrun
  have hcne : remote ≠ [] := ne_nil_of_findall_ne_nil hfind
  have htids : ((l.reverse).map (fun t => (t, get_thread_details tables (df t.tid)))).map
      (fun p => p.1.tid) = l.reverse.map Thread.tid := by
    rw [List.map_map]
    rfl
  have hdel : tr.delivered = l.reverse.map Thread.tid := by
    rw [htr, check_loop_all_ok_delivered _ 0 _ hcne, htids]
  have hper : tr.persisted = l.reverse.map Thread.tid := by
    rw [htr, check_loop_all_ok_persisted _ 0 _ hcne, htids]
  have hstop : tr.stop = .completed := by
    rw [htr, check_loop_all_ok_stop _ 0 _ hcne]
  have hdesc : l.Pairwise (fun a b => b.tid ≤ a.tid) :=
    hsor.sublist (goFetch_sublist pages (extractLastTid remote) 4 1 l hgf)
  have hasc : (l.reverse.map Thread.tid).Pairwise (fun a b => a ≤ b) := by
    refine List.pairwise_map.mpr ?_
    rw [List.pairwise_reverse]
    exact hdesc
  refine ⟨hstop, by rw [hdel, hper], by rw [hdel]; exact hasc, ?_⟩
  by_cases hl : l = []
  · subst hl
    have hst : tr.state = ⟨remote, remote⟩ := by
      rw [htr]
      exact check_loop_all_ok_state_nil 0 _
    have hsr : tr.state.remote = remote := by rw [hst]
    refine ⟨by rw [hsr], ?_, fun _ => hsr⟩
    intro x hx
    rw [hdel] at hx
    simp at hx
  · have hlr : l.reverse ≠ [] := by simpa using hl
    have htsne : ((l.reverse).map (fun t => (t, get_thread_details tables (df t.tid)))) ≠ [] := by
      simpa using hlr
    have hst : tr.state = ⟨iterSub (l.reverse.map Thread.tid) remote,
        iterSub (l.reverse.map Thread.tid) remote⟩ := by
      rw [htr, check_loop_all_ok_state_ne _ 0 _ hcne htsne, htids]
    have hsr : tr.state.remote = iterSub (l.reverse.map Thread.tid) remote := by rw [hst]
    obtain ⟨t0, ts0, hlc⟩ : ∃ t0 ts0, l = t0 :: ts0 := by
      cases l with
      | nil => exact absurd rfl hl
      | cons a b => exact ⟨a, b, rfl⟩
    have hglast : (l.reverse.map Thread.tid).getLast? = some t0.tid := by
      rw [List.map_reverse, List.getLast?_reverse, hlc]
      rfl
    have hext : extractLastTid tr.state.remote = (t0.tid : Int) := by
      rw [hsr]
      exact extract_iterSub (l.reverse.map Thread.tid) remote hfind t0.tid hglast
    refine ⟨?_, ?_, ?_⟩
    · rw [hext]
      by_cases hw : 0 < extractLastTid remote
      · have hpage1 : (pages 1).threads.Pairwise (fun a b => b.tid ≤ a.tid) :=
          hsor.sublist (concatFrom_page_sublist pages 5 1 1 (le_refl _) (by omega))
        have hgt := goFetch_head_gt pages (extractLastTid remote) hw hpage1 3 l hgf t0
          (by rw [hlc]; rfl)
        omega
      · have hnn : (0 : Int) ≤ (t0.tid : Int) := Int.natCast_nonneg _
        omega
    · intro x hx
      rw [hdel] at hx
      rw [hsr]
      exact extract_iterSub (l.reverse.map Thread.tid) remote hfind x hx
    · intro hdnil
      exfalso
      rw [hdel, hlc] at hdnil
      simp at hdnil

theorem c2_witness :
    (runTraceOf cex2Run).stop = .completed ∧
    (runTraceOf cex2Run).delivered = (runTraceOf cex2Run).persisted ∧
    (runTraceOf cex2Run).delivered.Pairwise (fun a b => a ≤ b) ∧
    extractLastTid cex2Desc ≤ extractLastTid (runTraceOf cex2Run).state.remote ∧
    (∀ x, (runTraceOf cex2Run).delivered.getLast? = some x →
      extractLastTid (runTraceOf cex2Run).state.remote = (x : Int)) ∧
    ((runTraceOf cex2Run).delivered = [] → (runTraceOf cex2Run).state.remote = cex2Desc) :=
  c2_monotone_final_watermark cex2Pages [] noDetails cex2Desc (runTraceOf cex2Run)
    (by decide) (by decide) rfl

/-- C8: with the channel metadata empty, the watermark read yields the
sentinel `-1` instead of aborting; the run still proceeds to the fetch,
which with the unknown watermark stops after page 1 (the result depends
only on page 1), and the run returns normally rather than raising —
though with an empty cached description nothing can be persisted. -/
theorem c8_empty_metadata_proceeds (pages : Nat → ApiPage) (t : Thread) (ts : List Thread)
    (h0 : (pages 1).errno = 0) (ht : (pages 1).threads = t :: ts) :
    extractLastTid [] = -1 ∧
    get_gradapp_threads pages (extractLastTid []) = .ok ((t :: ts).reverse) ∧
    (∀ pages', pages' 1 = pages 1 →
      get_gradapp_threads pages' (extractLastTid []) = .ok ((t :: ts).reverse)) ∧
    (∀ tables df pOK dOK,
      check_and_push pages tables df pOK dOK [] =
        .ok ⟨⟨[], []⟩, [], [], .persistFailed⟩) := by
  have hm1 : extractLastTid ([] : Str) = -1 := rfl
  have hfetch : ∀ (ps : Nat → ApiPage), ps 1 = pages 1 →
      get_gradapp_threads ps (extractLastTid []) = .ok ((t :: ts).reverse) := by
    intro ps hps
    have h0' : (ps 1).errno = 0 := by rw [hps]; exact h0
    have ht' : (ps 1).threads = t :: ts := by rw [hps]; exact ht
    rw [get_gradapp_threads_eq, hm1, goFetch_all h0' ht' (Or.inl (by omega))]
    rfl
  refine ⟨hm1, hfetch pages rfl, hfetch, ?_⟩
  intro tables df pOK dOK
  have hunf : check_and_push pages tables df pOK dOK [] =
      (((goFetch pages (extractLastTid []) 1 4).map List.reverse).map
        (List.map (fun u => (u, get_thread_details tables (df u.tid))))).map
        (fun l => check_loop pOK dOK l 0 ⟨[], []⟩) := rfl
  rw [hunf, hm1, goFetch_all h0 ht (Or.inl (by omega))]
  simp only [Except.map]
  obtain ⟨q, qs, hq⟩ : ∃ q qs,
      ((t :: ts).reverse.map (fun u => (u, get_thread_details tables (df u.tid)))) =
        q :: qs := by
    cases hc : ((t :: ts).reverse.map (fun u => (u, get_thread_details tables (df u.tid)))) with
    | nil =>
      exfalso
      have hlen := congrArg List.length hc
      simp at hlen
    | cons q qs => exact ⟨q, qs, rfl⟩
  rw [hq]
  simp [check_loop, set_last_tid]

theorem c8_witness :
    extractLastTid [] = -1 ∧
    get_gradapp_threads witPages (extractLastTid []) =
      .ok [mkThread 86, mkThread 101, mkThread 102, mkThread 103,
        mkThread 104, mkThread 105] ∧
    check_and_push witPages [] noDetails (fun _ => true) (fun _ => true) [] =
      .ok ⟨⟨[], []⟩, [], [], .persistFailed⟩ := by
  obtain ⟨h1, h2, -, h4⟩ := c8_empty_metadata_proceeds witPages (mkThread 105)
    [mkThread 104, mkThread 103, mkThread 102, mkThread 101, mkThread 86] rfl rfl
  exact ⟨h1, by rw [h2]; rfl, h4 [] noDetails (fun _ => true) (fun _ => true)⟩

end GradApp
